import Mathlib

/-!
Shallow embedding of `src/pathing.c` of the nush repository: the binary-heap
priority queue (`PQueue_*`), the lazily-cached 2D grid of Lua values
(`LuaMap_*`) and the Dijkstra distance-map engine (`dijvisit`,
`compute_dijkstra`, `single_source_dijkstra_map`,
`multiple_source_dijkstra_map`).

Modelling choices:
* `disttype` (a C `float`) is modelled as exact rational arithmetic `ℚ`.
* The Lua table bound to a read-through `LuaMap` (`tiles_index` plus the
  optional `attr_index` field selector) is modelled as an injected capability
  `source : ℕ → ℕ → LuaVal` giving, for each coordinate, the Lua value the
  stack dance `lua_rawgeti`/`lua_gettable` would produce; `tiles_index` is
  kept only as the 0-vs-nonzero flag the C code branches on.
* Functions that can call `error()` (which raises a Lua error and does not
  return) are given the return type `Except Err _`.
* The unbounded `while` loop of `compute_dijkstra` is written with explicit
  fuel, returning `none` when the fuel runs out.
* `queries` is an instrumentation field logging each external-source query,
  used to state the caching claims; it affects no computed value.
-/

namespace Pathing

/-- C `typedef float disttype`, modelled as exact rationals. -/
abbrev disttype := ℚ

/-- Addition on `disttype`.  `Rat.add` (behind `+`) is `@[irreducible]`, so
closed runs of the engine could not be evaluated by `decide`; `dadd` is an
unfoldable addition, proved equal to `+` in `dadd_eq` below, and the
engine is defined with it. -/
def dadd (a b : disttype) : disttype :=
  mkRat (a.num * b.den + b.num * a.den) (a.den * b.den)

/-- `#define LUAMAP_UNCACHED_TILE -424242.` -/
def LUAMAP_UNCACHED_TILE : disttype := -424242

/-- The diagonal tie-breaking penalty literal `0.001` of `dijvisit`,
written as an unfoldable rational (`= 1/1000`, see
`DIAGONAL_PENALTY_eq`). -/
def DIAGONAL_PENALTY : disttype := mkRat 1 1000

/-- The Dijkstra/A* `Node` struct.  The field `g` of the C struct is never
read nor written anywhere in `pathing.c` and is omitted. -/
structure Node where
  f : disttype
  x : ℕ
  y : ℕ
deriving DecidableEq, Repr, Inhabited

/-- `lesseq`: heap ordering comparison, on `f` only. -/
def lesseq (lhs rhs : Node) : Prop := lhs.f ≤ rhs.f

instance (lhs rhs : Node) : Decidable (lesseq lhs rhs) :=
  inferInstanceAs (Decidable (lhs.f ≤ rhs.f))

/-- The two messages `error()` is called with in `pathing.c`. -/
inductive Err where
  | emptyPop      -- "pop from empty queue"
  | unboundRead   -- "LuaMap_read() called on a LuaMap without a table data source"
deriving DecidableEq, Repr

/-! ### Priority queue -/

/-- A `PQueue` is modelled as the list of the `size` live elements of the
backing array (`data[0] .. data[size-1]`); the capacity / doubling realloc
is invisible to behaviour. -/
abbrev PQueue := List Node

/-- `#define LEFT_CHILD(idx) (2*idx+1)` -/
def LEFT_CHILD (idx : ℕ) : ℕ := 2*idx+1

/-- `#define PARENT(idx) ((idx-1)/2)` -/
def PARENT (idx : ℕ) : ℕ := (idx-1)/2

/-- `PQueue_size` -/
def PQueue_size (pq : PQueue) : ℕ := pq.length

/-- The `smallest` local of the `PQueue_pop` loop body: the right child if
it is inside the array and compares `<=` the left child, else the left
child. -/
def popSmallest (data : List Node) (hole : ℕ) : ℕ :=
  if LEFT_CHILD hole + 1 < data.length ∧
      lesseq (data.getD (LEFT_CHILD hole + 1) default)
        (data.getD (LEFT_CHILD hole) default)
  then LEFT_CHILD hole + 1 else LEFT_CHILD hole

/-- The hole-bubbling loop of `PQueue_pop`: `data` is the array after the
last element was popped off the end (so `data.length` is the new size),
`hole` starts at the root, `to_insert` is the popped-off last element.
`fuel` is an upper bound on the number of loop iterations (the hole index
strictly increases each turn, so any `fuel ≥ data.length - hole` is enough;
the caller passes `data.length`); it only makes the recursion structural
and never alters the result. -/
def popSift (fuel : ℕ) (data : List Node) (hole : ℕ) (to_insert : Node) :
    List Node :=
  match fuel with
  | 0 => data.set hole to_insert
  | fuel + 1 =>
    if LEFT_CHILD hole < data.length then
      if lesseq to_insert (data.getD (popSmallest data hole) default) then
        data.set hole to_insert
      else
        popSift fuel (data.set hole (data.getD (popSmallest data hole) default))
          (popSmallest data hole) to_insert
    else
      data.set hole to_insert

/-- `PQueue_pop`: return a least element, or the empty-queue error. -/
def PQueue_pop (pq : PQueue) : Except Err (Node × PQueue) :=
  match pq with
  | [] => .error .emptyPop
  | a :: as =>
    let to_insert := (a :: as).getLast (by simp)
    .ok (a, popSift as.length ((a :: as).dropLast) 0 to_insert)

/-- The hole-bubbling loop of `PQueue_push`; `hole` starts at the append
position (the old size).  `fuel` is an upper bound on the number of loop
iterations (the hole index strictly decreases, so `fuel ≥ hole` is enough;
the caller passes the initial hole); it only makes the recursion structural
and never alters the result. -/
def pushSift (fuel : ℕ) (data : List Node) (hole : ℕ) (element : Node) :
    List Node :=
  match fuel with
  | 0 => data.set hole element
  | fuel + 1 =>
    if 0 < hole then
      let parent := PARENT hole
      if lesseq (data.getD parent default) element then
        data.set hole element
      else
        pushSift fuel (data.set hole (data.getD parent default)) parent element
    else
      data.set 0 element

/-- `PQueue_push`.  The C code grows `size` by one (slot contents
unspecified) and then runs the sift loop, which writes every slot it reads
before reading it; appending `element` as the placeholder for the new slot
yields the same final array. -/
def PQueue_push (pq : PQueue) (element : Node) : PQueue :=
  pushSift pq.length (pq ++ [element]) pq.length element

/-- The binary min-heap invariant of the backing array: every non-root
index is `≥` its parent in the `f` order. -/
def IsHeap (data : List Node) : Prop :=
  ∀ j, 0 < j → j < data.length →
    (data.getD (PARENT j) default).f ≤ (data.getD j default).f

/-! ### LuaMap -/

/-- The three kinds of Lua value `LuaMap_read` distinguishes for a tile. -/
inductive LuaVal where
  | boolean (b : Bool)
  | num (q : disttype)
  | nil
deriving DecidableEq, Repr

/-- The `LuaMap` struct.  `tiles` is the flat `(w+1)*(h+1)` backing store
addressed by `(x-1) + (y-1)*w`; `source` and `queries` are the modelling
fields described in the file header. -/
structure LuaMap where
  tiles_index : ℕ        -- 0 iff not tied to a table
  attr_index : ℕ
  default_value : disttype
  w : ℕ
  h : ℕ
  tiles : List disttype
  source : ℕ → ℕ → LuaVal
  queries : List (ℕ × ℕ)

/-- The flat index `(x - 1) + (y - 1) * map->w` used by `LuaMap_read`,
`LuaMap_write` and `LuaMap_push` (coordinates count from 1). -/
def tileIdx (map : LuaMap) (x y : ℕ) : ℕ := (x - 1) + (y - 1) * map.w

/-- `LuaMap_new`: a self-contained map, every backing cell set to
`initval`, not tied to a table. -/
def LuaMap_new (w h : ℕ) (initval : disttype) : LuaMap where
  tiles_index := 0
  attr_index := 0
  default_value := 0
  w := w
  h := h
  tiles := List.replicate ((w+1)*(h+1)) initval
  source := fun _ _ => .nil
  queries := []

/-- `LuaMap_from_table`: a read-through map; all cells start uncached.  The
Lua grid (and the field selector applied to its tiles) is the injected
`source`; `tiles_index` is set to an arbitrary nonzero stack index. -/
def LuaMap_from_table (source : ℕ → ℕ → LuaVal) (attr_index w h : ℕ)
    (default_value : disttype) : LuaMap :=
  { LuaMap_new w h LUAMAP_UNCACHED_TILE with
    tiles_index := 1
    attr_index := attr_index
    default_value := default_value
    source := source }

/-- The value-conversion chain of `LuaMap_read` (`lua_type` dispatch):
boolean true ↦ 999999 (impassable), boolean false ↦ 1, nil ↦ the map's
default value, a number passes through. -/
def resolveTile (v : LuaVal) (default_value : disttype) : disttype :=
  match v with
  | .boolean true => 999999
  | .boolean false => 1
  | .nil => default_value
  | .num q => q

/-- `LuaMap_read`. -/
def LuaMap_read (map : LuaMap) (x y : ℕ) : Except Err (disttype × LuaMap) :=
  let i := tileIdx map x y
  let tile := map.tiles.getD i 0
  if tile ≠ LUAMAP_UNCACHED_TILE then .ok (tile, map)
  else if map.tiles_index = 0 then .error .unboundRead
  else
    let v := resolveTile (map.source x y) map.default_value
    .ok (v, { map with tiles := map.tiles.set i v
                       queries := map.queries ++ [(x, y)] })

/-- `LuaMap_write`. -/
def LuaMap_write (map : LuaMap) (x y : ℕ) (value : disttype) : LuaMap :=
  { map with tiles := map.tiles.set (tileIdx map x y) value }

/-- `LuaMap_push`: export as a list-of-lists (outer list indexed by `x`),
still-uncached tiles becoming boolean `false`. -/
def LuaMap_push (map : LuaMap) : List (List LuaVal) :=
  (List.range' 1 map.w).map fun x =>
    (List.range' 1 map.h).map fun y =>
      let value := map.tiles.getD (tileIdx map x y) 0
      if value = LUAMAP_UNCACHED_TILE then .boolean false else .num value

/-! ### Dijkstra -/

/-- The `cost` local of `dijvisit`: `parent.f` plus the read cost, plus
the slight penalty to diagonal moves (when both offsets are nonzero). -/
def dijCost (f cv : disttype) (xoff yoff : ℤ) : disttype :=
  if xoff ≠ 0 ∧ yoff ≠ 0 then dadd (dadd f cv) DIAGONAL_PENALTY
  else dadd f cv

/-- `dijvisit`: visit the neighbour of `parent` at offset `(xoff, yoff)`.
Out-of-range neighbours are skipped before any read.  The state threads the
queue, the cost map and the distance map (both maps may gain cache
entries). -/
def dijvisit (pq : PQueue) (map dists : LuaMap) (parent : Node)
    (xoff yoff : ℤ) : Except Err (PQueue × LuaMap × LuaMap) :=
  let x : ℤ := (parent.x : ℤ) + xoff
  let y : ℤ := (parent.y : ℤ) + yoff
  if x < 1 ∨ x > (map.w : ℤ) ∨ y < 1 ∨ y > (map.h : ℤ) then
    .ok (pq, map, dists)
  else
    match LuaMap_read map x.toNat y.toNat with
    | .error e => .error e
    | .ok (cv, map') =>
      match LuaMap_read dists x.toNat y.toNat with
      | .error e => .error e
      | .ok (dv, dists') =>
        if dijCost parent.f cv xoff yoff < dv then
          .ok (PQueue_push pq ⟨dijCost parent.f cv xoff yoff,
            x.toNat, y.toNat⟩, map', dists')
        else
          .ok (pq, map', dists')

/-- The 8 neighbour offsets in the order of the two nested `for` loops of
`compute_dijkstra` (`xoff` outer, `yoff` inner, `(0,0)` skipped). -/
def dijOffsets : List (ℤ × ℤ) :=
  [(-1,-1), (-1,0), (-1,1), (0,-1), (0,1), (1,-1), (1,0), (1,1)]

/-- The neighbour-expansion double loop of `compute_dijkstra`. -/
def dijExpand (st : PQueue × LuaMap × LuaMap) (node : Node) :
    Except Err (PQueue × LuaMap × LuaMap) :=
  dijOffsets.foldlM
    (fun st off => dijvisit st.1 st.2.1 st.2.2 node off.1 off.2) st

/-- `compute_dijkstra`: the relaxation loop, with explicit fuel (`none` =
out of fuel; the loop itself has no bound in C). -/
def compute_dijkstra (fuel : ℕ) (pq : PQueue) (costmap distmap : LuaMap) :
    Option (Except Err (LuaMap × LuaMap)) :=
  match fuel with
  | 0 => none
  | fuel + 1 =>
    match pq with
    | [] => some (.ok (costmap, distmap))
    | _ :: _ =>
      match PQueue_pop pq with
      | .error e => some (.error e)
      | .ok (node, pq') =>
        match LuaMap_read distmap node.x node.y with
        | .error e => some (.error e)
        | .ok (dv, distmap') =>
          if dv ≤ node.f then   -- "skip if not better than known"
            compute_dijkstra fuel pq' costmap distmap'
          else
            match dijExpand (pq', costmap,
                LuaMap_write distmap' node.x node.y node.f) node with
            | .error e => some (.error e)
            | .ok (pq2, costmap2, distmap3) =>
              compute_dijkstra fuel pq2 costmap2 distmap3

/-- `single_source_dijkstra_map`: fresh distance map prefilled with
`maxcost`, queue seeded with `(f = 0, x, y)`; returns the distance map. -/
def single_source_dijkstra_map (costmap : LuaMap) (x y : ℕ)
    (maxcost : disttype) (fuel : ℕ) : Option (Except Err LuaMap) :=
  let pq := PQueue_push [] ⟨0, x, y⟩
  let distmap := LuaMap_new costmap.w costmap.h maxcost
  (compute_dijkstra fuel pq costmap distmap).map (Except.map Prod.snd)

/-- The coordinates `(x, y)`, `x` outer ascending, `y` inner ascending, of
the seeding double loop of `multiple_source_dijkstra_map`. -/
def coordList (w h : ℕ) : List (ℕ × ℕ) :=
  (List.range' 1 w).flatMap fun x => (List.range' 1 h).map fun y => (x, y)

/-- One iteration of the seeding loop of `multiple_source_dijkstra_map`:
read the tile, push it as a source if its value is `< maxcost`, then write
`maxcost` to the tile (even if it is a goal). -/
def mseedCell (maxcost : disttype) (st : PQueue × LuaMap) (p : ℕ × ℕ) :
    Except Err (PQueue × LuaMap) := do
  let (value, dm) ← LuaMap_read st.2 p.1 p.2
  let pq := if value < maxcost then PQueue_push st.1 ⟨value, p.1, p.2⟩ else st.1
  .ok (pq, LuaMap_write dm p.1 p.2 maxcost)

/-- The full seeding phase of `multiple_source_dijkstra_map`. -/
def mseed (distmap : LuaMap) (maxcost : disttype) :
    Except Err (PQueue × LuaMap) :=
  (coordList distmap.w distmap.h).foldlM (mseedCell maxcost) ([], distmap)

/-- `multiple_source_dijkstra_map`: seed from the caller-supplied distance
map, then run the relaxation loop.  Returns the final cost map and distance
map (the C function mutates them in place). -/
def multiple_source_dijkstra_map (costmap distmap : LuaMap)
    (maxcost : disttype) (fuel : ℕ) : Option (Except Err (LuaMap × LuaMap)) :=
  match mseed distmap maxcost with
  | .error e => some (.error e)
  | .ok (pq, distmap') => compute_dijkstra fuel pq costmap distmap'

/-! ### Auxiliary definitions used to state the verified properties -/

instance instDecidableEqExcept {e a : Type} [DecidableEq e] [DecidableEq a] :
    DecidableEq (Except e a) := fun x y =>
  match x, y with
  | .ok u, .ok v => if h : u = v then isTrue (by rw [h]) else isFalse (by simp [h])
  | .error u, .error v =>
    if h : u = v then isTrue (by rw [h]) else isFalse (by simp [h])
  | .ok _, .error _ => isFalse (by simp)
  | .error _, .ok _ => isFalse (by simp)

/-- An abstract priority-queue operation: `PQueue_push` of a given element,
or `PQueue_pop`. -/
inductive HeapOp where
  | push (e : Node)
  | pop

/-- Runs a sequence of queue operations from state `q` and checks that
every `pop` happens on a non-empty queue. -/
def popsValid (q : PQueue) : List HeapOp → Bool
  | [] => true
  | .push e :: rest => popsValid (PQueue_push q e) rest
  | .pop :: rest =>
    match PQueue_pop q with
    | .ok (_, q') => popsValid q' rest
    | .error _ => false

/-- Runs a sequence of queue operations from state `q` and states that
every `pop` returns an element whose priority is minimal among the
elements currently in the queue. -/
def popsMinimal (q : PQueue) : List HeapOp → Prop
  | [] => True
  | .push e :: rest => popsMinimal (PQueue_push q e) rest
  | .pop :: rest =>
    match PQueue_pop q with
    | .ok (r, q') => (∀ x ∈ q, r.f ≤ x.f) ∧ popsMinimal q' rest
    | .error _ => False

/-- Push a whole list of elements onto the empty queue, in order. -/
def pushAll (es : List Node) : PQueue := es.foldl PQueue_push []

/-- Pop repeatedly (at most `n` times), collecting the results, stopping
on an empty queue. -/
def popAllFuel : ℕ → PQueue → List Node
  | 0, _ => []
  | n + 1, q =>
    match PQueue_pop q with
    | .ok (r, q') => r :: popAllFuel n q'
    | .error _ => []

/-- Pop every element of the queue, collecting the results in order. -/
def popAll (q : PQueue) : List Node := popAllFuel q.length q

/-- Perform a sequence of `LuaMap_read`s (for the values' sake), keeping
the map state; a failing read leaves the map unchanged. -/
def readSeq (m : LuaMap) (ps : List (ℕ × ℕ)) : LuaMap :=
  ps.foldl (fun m p =>
    match LuaMap_read m p.1 p.2 with
    | .ok (_, m') => m'
    | .error _ => m) m

/-- The 5×5 read-through cost grid of the claimed uniform-cost scenario:
every tile of the bound source holds the number 1. -/
def c1costmap : LuaMap := LuaMap_from_table (fun _ _ => .num 1) 0 5 5 0

/-- The value a successful `LuaMap_read m x y` returns: the cached value if
the cell is resolved, otherwise the resolution of the external source
value. -/
def cellVal (m : LuaMap) (x y : ℕ) : disttype :=
  if m.tiles.getD (tileIdx m x y) 0 ≠ LUAMAP_UNCACHED_TILE
  then m.tiles.getD (tileIdx m x y) 0
  else resolveTile (m.source x y) m.default_value

/-- A 2×2 read-through grid with cell (1,1) pre-resolved to 5, used as a
concrete witness input. -/
def c4map : LuaMap :=
  LuaMap_write (LuaMap_from_table (fun _ _ => LuaVal.nil) 0 2 2 7) 1 1 5

/-- Non-negative cost data: every already-cached cost value and every
resolvable source value of the cost map is `≥ 0`. -/
def costOk (cm : LuaMap) : Prop :=
  (∀ i, cm.tiles.getD i 0 ≠ LUAMAP_UNCACHED_TILE →
    0 ≤ cm.tiles.getD i 0) ∧
  (∀ x y, 0 ≤ resolveTile (cm.source x y) cm.default_value)

/-- The flat distance-grid index of a node's coordinate, for a fixed grid
width `W`. -/
def nodeIdx (W : ℕ) (e : Node) : ℕ := (e.x - 1) + (e.y - 1) * W

/-- Intermediate invariant of the `pushSift` loop: the heap property holds
for every parent/child pair not involving the hole, every child of the
hole is `≥` the element in hand, and (bridge) every child of the hole is
`≥` the value at the hole's parent. -/
def PushInv (data : List Node) (hole : ℕ) (e : Node) : Prop :=
  (∀ j, 0 < j → j < data.length → j ≠ hole → PARENT j ≠ hole →
    (data.getD (PARENT j) default).f ≤ (data.getD j default).f) ∧
  (∀ j, 0 < j → j < data.length → PARENT j = hole →
    e.f ≤ (data.getD j default).f) ∧
  (0 < hole → ∀ j, 0 < j → j < data.length → PARENT j = hole →
    (data.getD (PARENT hole) default).f ≤ (data.getD j default).f)

/-- Intermediate invariant of the `popSift` loop: the heap property holds
for every parent/child pair not involving the hole, the value at the
hole's parent is `≤` the element in hand, and it is `≤` every child of
the hole. -/
def PopInv (data : List Node) (hole : ℕ) (e : Node) : Prop :=
  (∀ j, 0 < j → j < data.length → j ≠ hole → PARENT j ≠ hole →
    (data.getD (PARENT j) default).f ≤ (data.getD j default).f) ∧
  (0 < hole → (data.getD (PARENT hole) default).f ≤ e.f) ∧
  (0 < hole → ∀ j, 0 < j → j < data.length → PARENT j = hole →
    (data.getD (PARENT hole) default).f ≤ (data.getD j default).f)

/-! #### A non-terminating run of `compute_dijkstra`

A queue element whose `f` equals the cache sentinel `-424242` commits its
distance as the sentinel, so the committed cell immediately reads back as
uncached; over a zero-cost 2×1 grid the two cells then re-push each other
forever.  All tile costs resolve to 0, which is non-negative. -/

/-- The 2×1 cost map of the non-termination run: both cells cached at 0. -/
def c6cm : LuaMap :=
  ⟨1, 0, 0, 2, 1, [0, 0], fun _ _ => LuaVal.num 0, []⟩

/-- The 2×1 distance map of the non-termination run, with given backing
cells and query log; its source resolves every cell to `100`. -/
def c6dm (t : List disttype) (q : List (ℕ × ℕ)) : LuaMap :=
  ⟨1, 0, 0, 2, 1, t, fun _ _ => LuaVal.num 100, q⟩

/-- The left cell as a queue element with sentinel-valued `f`. -/
def c6A : Node := ⟨LUAMAP_UNCACHED_TILE, 1, 1⟩

/-- The right cell as a queue element with sentinel-valued `f`. -/
def c6B : Node := ⟨LUAMAP_UNCACHED_TILE, 2, 1⟩

/-! ## Basic lemmas -/

/-- `dadd` is ordinary rational addition. -/
theorem dadd_eq (a b : disttype) : dadd a b = a + b := (Rat.add_def' a b).symm

/-- The penalty constant is the literal `0.001 = 1/1000`. -/
theorem DIAGONAL_PENALTY_eq : DIAGONAL_PENALTY = 1/1000 := by
  unfold DIAGONAL_PENALTY
  rw [Rat.mkRat_eq_divInt, Rat.divInt_eq_div]
  norm_num

/-- The penalty constant is positive. -/
theorem DIAGONAL_PENALTY_pos : 0 < DIAGONAL_PENALTY := by
  rw [DIAGONAL_PENALTY_eq]; norm_num

theorem getD_set_self {α : Type} (l : List α) (i : ℕ) (a d : α)
    (h : i < l.length) : (l.set i a).getD i d = a := by
  induction l generalizing i with
  | nil => simp at h
  | cons x t ih =>
    cases i with
    | zero => rfl
    | succ n =>
      simp only [List.set, List.getD_cons_succ]
      exact ih n (by simpa using h)

theorem getD_set_ne {α : Type} (l : List α) {i j : ℕ} (a d : α)
    (h : i ≠ j) : (l.set i a).getD j d = l.getD j d := by
  induction l generalizing i j with
  | nil => rfl
  | cons x t ih =>
    cases i with
    | zero =>
      cases j with
      | zero => exact absurd rfl h
      | succ m => rfl
    | succ n =>
      cases j with
      | zero => rfl
      | succ m =>
        simp only [List.set, List.getD_cons_succ]
        exact @ih n m (by omega)

theorem getD_append_left {α : Type} (l l' : List α) (j : ℕ) (d : α)
    (h : j < l.length) : (l ++ l').getD j d = l.getD j d := by
  induction l generalizing j with
  | nil => simp at h
  | cons x t ih =>
    cases j with
    | zero => rfl
    | succ n =>
      simp only [List.cons_append, List.getD_cons_succ]
      exact ih n (by simpa using h)

theorem getD_append_last {α : Type} (l : List α) (e d : α) :
    (l ++ [e]).getD l.length d = e := by
  induction l with
  | nil => rfl
  | cons x t ih => simp only [List.cons_append, List.length_cons,
      List.getD_cons_succ]; exact ih

theorem getD_dropLast {α : Type} (l : List α) (j : ℕ) (d : α)
    (h : j + 1 < l.length) : l.dropLast.getD j d = l.getD j d := by
  induction l generalizing j with
  | nil => rfl
  | cons x t ih =>
    cases t with
    | nil => simp at h
    | cons y s =>
      cases j with
      | zero => rfl
      | succ n =>
        simp only [List.dropLast_cons_of_ne_nil (List.cons_ne_nil y s),
          List.getD_cons_succ]
        exact ih n (by simpa using h)

theorem getLast_eq_getD {α : Type} (l : List α) (h : l ≠ []) (d : α) :
    l.getLast h = l.getD (l.length - 1) d := by
  induction l with
  | nil => exact absurd rfl h
  | cons x t ih =>
    cases t with
    | nil => rfl
    | cons y s =>
      rw [List.getLast_cons (List.cons_ne_nil y s)]
      simpa using ih (List.cons_ne_nil y s)

theorem set_append_last {α : Type} (l : List α) (a b : α) :
    (l ++ [a]).set l.length b = l ++ [b] := by
  induction l with
  | nil => rfl
  | cons x t ih => simp only [List.cons_append, List.length_cons,
      List.set_cons_succ]; rw [ih]

theorem set_cons_perm {α : Type} (t : List α) (k : ℕ) (x d : α)
    (h : k < t.length) : (t.getD k d :: t.set k x).Perm (x :: t) := by
  induction t generalizing k with
  | nil => simp at h
  | cons u s ih =>
    cases k with
    | zero => exact List.Perm.swap x u s
    | succ n =>
      have h1 : (s.getD n d :: u :: s.set n x).Perm
          (u :: (s.getD n d :: s.set n x)) := List.Perm.swap u (s.getD n d) _
      have h2 := (ih n (by simpa using h)).cons u
      exact h1.trans (h2.trans (List.Perm.swap x u s))

theorem set_swap_perm {α : Type} (t : List α) (a : ℕ) (y z : α)
    (h : a < t.length) : (y :: t.set a z).Perm (z :: t.set a y) := by
  induction t generalizing a with
  | nil => simp at h
  | cons u s ih =>
    cases a with
    | zero => exact List.Perm.swap z y s
    | succ n =>
      have h1 : (y :: u :: s.set n z).Perm (u :: (y :: s.set n z)) :=
        List.Perm.swap u y _
      have h2 := (ih n (by simpa using h)).cons u
      exact h1.trans (h2.trans (List.Perm.swap z u _))

theorem set_copy_perm {α : Type} (l : List α) (a b : ℕ) (x d : α)
    (ha : a < l.length) (hb : b < l.length) (hab : a ≠ b) :
    ((l.set a (l.getD b d)).set b x).Perm (l.set a x) := by
  induction l generalizing a b with
  | nil => simp at ha
  | cons u t ih =>
    cases a with
    | zero =>
      cases b with
      | zero => exact absurd rfl hab
      | succ m =>
        show (t.getD m d :: t.set m x).Perm (x :: t)
        exact set_cons_perm t m x d (by simpa using hb)
    | succ n =>
      cases b with
      | zero =>
        show (x :: t.set n u).Perm (u :: t.set n x)
        exact set_swap_perm t n x u (by simpa using ha)
      | succ m =>
        show (u :: (t.set n (t.getD m d)).set m x).Perm (u :: t.set n x)
        exact (ih n m (by simpa using ha) (by simpa using hb) (by omega)).cons u

theorem getD_eq_get {α : Type} (l : List α) (d : α) {i : ℕ}
    (h : i < l.length) : l.getD i d = l.get ⟨i, h⟩ := by
  simp [List.getD_eq_getElem?_getD, List.getElem?_eq_getElem h]

/-! ## Heap lemmas -/

theorem PARENT_lt {j : ℕ} (h : 0 < j) : PARENT j < j := by
  unfold PARENT; omega

theorem PARENT_child_iff {h j : ℕ} (hj : 0 < j) :
    PARENT j = h ↔ j = 2*h+1 ∨ j = 2*h+2 := by
  unfold PARENT; omega

/-- If the sift loop may stop writing `e` into the hole (every in-range
child of the hole is `≥ e`, and either the hole is the root or its parent
is `≤ e`), the result is a heap. -/
theorem sift_stop (data : List Node) (hole : ℕ) (e : Node)
    (hlen : hole < data.length)
    (hA : ∀ j, 0 < j → j < data.length → j ≠ hole → PARENT j ≠ hole →
      (data.getD (PARENT j) default).f ≤ (data.getD j default).f)
    (hup : 0 < hole → (data.getD (PARENT hole) default).f ≤ e.f)
    (hdown : ∀ j, 0 < j → j < data.length → PARENT j = hole →
      e.f ≤ (data.getD j default).f) :
    IsHeap (data.set hole e) := by
  intro j hj hjlen
  rw [List.length_set] at hjlen
  by_cases hjh : j = hole
  · subst hjh
    have hp : PARENT j ≠ j := Nat.ne_of_lt (PARENT_lt hj)
    rw [getD_set_ne data e default (fun hcontra => hp hcontra.symm),
      getD_set_self data j e default hlen]
    exact hup hj
  · by_cases hpj : PARENT j = hole
    · rw [hpj, getD_set_self data hole e default hlen,
        getD_set_ne data e default (fun hcontra => hjh hcontra.symm)]
      exact hdown j hj hjlen hpj
    · rw [getD_set_ne data e default (fun hc => hpj hc.symm),
        getD_set_ne data e default (fun hc => hjh hc.symm)]
      exact hA j hj hjlen hjh hpj

/-- One step of the `pushSift` loop preserves `PushInv`. -/
theorem push_step (data : List Node) (hole : ℕ) (e : Node)
    (hinv : PushInv data hole e) (h0 : 0 < hole) (hlen : hole < data.length)
    (hgt : e.f < (data.getD (PARENT hole) default).f) :
    PushInv (data.set hole (data.getD (PARENT hole) default)) (PARENT hole)
      e := by
  obtain ⟨hA, hB, hC⟩ := hinv
  have hplt : PARENT hole < hole := PARENT_lt h0
  have hplen : PARENT hole < data.length := lt_trans hplt hlen
  refine ⟨?_, ?_, ?_⟩
  · intro j hj hjlen hjp hpjp
    rw [List.length_set] at hjlen
    by_cases hjh : j = hole
    · exact absurd (hjh ▸ rfl) hpjp
    · by_cases hpj : PARENT j = hole
      · rw [hpj, getD_set_self data _ _ default hlen,
          getD_set_ne data _ default (fun hc => hjh hc.symm)]
        exact hC h0 j hj hjlen hpj
      · rw [getD_set_ne data _ default (fun hc => hpj hc.symm),
          getD_set_ne data _ default (fun hc => hjh hc.symm)]
        exact hA j hj hjlen hjh hpj
  · intro j hj hjlen hpj
    rw [List.length_set] at hjlen
    by_cases hjh : j = hole
    · subst hjh
      rw [getD_set_self data _ _ default hlen]
      exact le_of_lt hgt
    · rw [getD_set_ne data _ default (fun hc => hjh hc.symm)]
      have := hA j hj hjlen hjh (by rw [hpj]; exact Nat.ne_of_lt hplt)
      rw [hpj] at this
      exact le_trans (le_of_lt hgt) this
  · intro hp0 j hj hjlen hpj
    rw [List.length_set] at hjlen
    have hpplt : PARENT (PARENT hole) < hole := lt_trans (PARENT_lt hp0) hplt
    have hself : (data.getD (PARENT (PARENT hole)) default).f ≤
        (data.getD (PARENT hole) default).f :=
      hA (PARENT hole) hp0 hplen (Nat.ne_of_lt hplt) (Nat.ne_of_lt hpplt)
    rw [getD_set_ne data _ default (fun hc => absurd hc.symm
      (Nat.ne_of_lt hpplt))]
    by_cases hjh : j = hole
    · subst hjh
      rw [getD_set_self data _ _ default hlen]
      exact hself
    · rw [getD_set_ne data _ default (fun hc => hjh hc.symm)]
      have := hA j hj hjlen hjh (by rw [hpj]; exact Nat.ne_of_lt hplt)
      rw [hpj] at this
      exact le_trans hself this

/-- With enough fuel, `pushSift` started inside the invariant produces a
heap. -/
theorem pushSift_isHeap (fuel : ℕ) (data : List Node) (hole : ℕ) (e : Node)
    (hlen : hole < data.length) (hfuel : hole ≤ fuel)
    (hinv : PushInv data hole e) : IsHeap (pushSift fuel data hole e) := by
  induction fuel generalizing data hole with
  | zero =>
    have h0 : hole = 0 := Nat.le_zero.mp hfuel
    subst h0
    show IsHeap (data.set 0 e)
    exact sift_stop data 0 e hlen hinv.1 (fun hc => absurd hc (lt_irrefl 0))
      hinv.2.1
  | succ fuel ih =>
    show IsHeap (pushSift (fuel + 1) data hole e)
    rw [pushSift]
    by_cases h0 : 0 < hole
    · rw [if_pos h0]
      by_cases hc : lesseq (data.getD (PARENT hole) default) e
      · rw [if_pos hc]
        exact sift_stop data hole e hlen hinv.1 (fun _ => hc) hinv.2.1
      · rw [if_neg hc]
        have hgt : e.f < (data.getD (PARENT hole) default).f :=
          lt_of_not_le hc
        exact ih _ _
          (by rw [List.length_set]; exact lt_trans (PARENT_lt h0) hlen)
          (by have := PARENT_lt h0; omega)
          (push_step data hole e hinv h0 hlen hgt)
    · rw [if_neg h0]
      have h0' : hole = 0 := by omega
      subst h0'
      exact sift_stop data 0 e hlen hinv.1 (fun hc => absurd hc (lt_irrefl 0))
        hinv.2.1

/-- `pushSift` permutes the array exactly as directly writing `e` into the
hole would. -/
theorem pushSift_perm (fuel : ℕ) (data : List Node) (hole : ℕ) (e : Node)
    (hlen : hole < data.length) :
    (pushSift fuel data hole e).Perm (data.set hole e) := by
  induction fuel generalizing data hole with
  | zero => exact List.Perm.refl _
  | succ fuel ih =>
    rw [pushSift]
    by_cases h0 : 0 < hole
    · rw [if_pos h0]
      by_cases hc : lesseq (data.getD (PARENT hole) default) e
      · rw [if_pos hc]
      · rw [if_neg hc]
        have hplt : PARENT hole < hole := PARENT_lt h0
        have step := ih (data.set hole (data.getD (PARENT hole) default))
          (PARENT hole) (by rw [List.length_set]; exact lt_trans hplt hlen)
        exact step.trans (set_copy_perm data hole (PARENT hole) e default
          hlen (lt_trans hplt hlen) (Nat.ne_of_gt hplt))
    · rw [if_neg h0]
      have h0' : hole = 0 := by omega
      subst h0'
      rfl

/-- The initial state of the `pushSift` loop run by `PQueue_push`
satisfies the invariant. -/
theorem push_init (pq : List Node) (e : Node) (hh : IsHeap pq) :
    PushInv (pq ++ [e]) pq.length e := by
  refine ⟨?_, ?_, ?_⟩
  · intro j hj hjlen hjne _
    rw [List.length_append, List.length_singleton] at hjlen
    have hjlt : j < pq.length := by omega
    have hplt : PARENT j < pq.length := lt_trans (PARENT_lt hj) hjlt
    rw [getD_append_left pq [e] j default hjlt,
      getD_append_left pq [e] (PARENT j) default hplt]
    exact hh j hj hjlt
  · intro j hj hjlen hpj
    rw [List.length_append, List.length_singleton] at hjlen
    rw [PARENT_child_iff hj] at hpj
    omega
  · intro _ j hj hjlen hpj
    rw [List.length_append, List.length_singleton] at hjlen
    rw [PARENT_child_iff hj] at hpj
    omega

/-- `PQueue_push` preserves the heap invariant. -/
theorem PQueue_push_isHeap (pq : PQueue) (e : Node) (hh : IsHeap pq) :
    IsHeap (PQueue_push pq e) :=
  pushSift_isHeap pq.length (pq ++ [e]) pq.length e
    (by rw [List.length_append, List.length_singleton]; omega) (le_refl _)
    (push_init pq e hh)

/-- `PQueue_push` adds exactly the pushed element. -/
theorem PQueue_push_perm (pq : PQueue) (e : Node) :
    (PQueue_push pq e).Perm (e :: pq) := by
  have h1 := pushSift_perm pq.length (pq ++ [e]) pq.length e
    (by rw [List.length_append, List.length_singleton]; omega)
  rw [set_append_last pq e e] at h1
  exact h1.trans (List.perm_append_singleton e pq)

/-- In a heap, the root is a minimum. -/
theorem isHeap_root_min (data : List Node) (hh : IsHeap data) :
    ∀ j, j < data.length →
      (data.getD 0 default).f ≤ (data.getD j default).f := by
  intro j
  induction j using Nat.strong_induction_on with
  | _ j ih =>
    intro hj
    rcases Nat.eq_zero_or_pos j with h0 | h0
    · subst h0; exact le_refl _
    · exact le_trans
        (ih (PARENT j) (PARENT_lt h0) (lt_trans (PARENT_lt h0) hj))
        (hh j h0 hj)

theorem popSmallest_facts (data : List Node) (hole : ℕ)
    (hch : LEFT_CHILD hole < data.length) :
    0 < popSmallest data hole ∧ PARENT (popSmallest data hole) = hole ∧
      popSmallest data hole < data.length ∧
      LEFT_CHILD hole ≤ popSmallest data hole ∧
      (∀ j, 0 < j → j < data.length → PARENT j = hole →
        (data.getD (popSmallest data hole) default).f ≤
          (data.getD j default).f) := by
  unfold popSmallest
  by_cases hr : LEFT_CHILD hole + 1 < data.length ∧
      lesseq (data.getD (LEFT_CHILD hole + 1) default)
        (data.getD (LEFT_CHILD hole) default)
  · rw [if_pos hr]
    refine ⟨by unfold LEFT_CHILD; omega, by unfold PARENT LEFT_CHILD; omega,
      hr.1, by omega, ?_⟩
    intro j hj hjlen hpj
    rcases (PARENT_child_iff hj).mp hpj with hjl | hjr
    · have : j = LEFT_CHILD hole := by unfold LEFT_CHILD; omega
      rw [this]; exact hr.2
    · have : j = LEFT_CHILD hole + 1 := by unfold LEFT_CHILD; omega
      rw [this]
  · rw [if_neg hr]
    refine ⟨by unfold LEFT_CHILD; omega, by unfold PARENT LEFT_CHILD; omega,
      hch, le_refl _, ?_⟩
    intro j hj hjlen hpj
    rcases (PARENT_child_iff hj).mp hpj with hjl | hjr
    · have : j = LEFT_CHILD hole := by unfold LEFT_CHILD; omega
      rw [this]
    · have hj' : j = LEFT_CHILD hole + 1 := by unfold LEFT_CHILD; omega
      subst hj'
      have hnot : ¬ lesseq (data.getD (LEFT_CHILD hole + 1) default)
          (data.getD (LEFT_CHILD hole) default) := by
        intro hle; exact hr ⟨hjlen, hle⟩
      exact le_of_lt (lt_of_not_le hnot)

/-- One step of the `popSift` loop preserves `PopInv`. -/
theorem pop_step (data : List Node) (hole s : ℕ) (e : Node)
    (hinv : PopInv data hole e) (hlen : hole < data.length)
    (hs0 : 0 < s) (hs1 : PARENT s = hole) (hs2 : s < data.length)
    (hs3 : ∀ j, 0 < j → j < data.length → PARENT j = hole →
      (data.getD s default).f ≤ (data.getD j default).f)
    (hcond : (data.getD s default).f < e.f) :
    PopInv (data.set hole (data.getD s default)) s e := by
  obtain ⟨hA, hB, hC⟩ := hinv
  have hholes : hole < s := hs1 ▸ PARENT_lt hs0
  refine ⟨?_, ?_, ?_⟩
  · intro j hj hjlen hjs hpjs
    rw [List.length_set] at hjlen
    by_cases hjh : j = hole
    · subst hjh
      have hj0 : 0 < j := hj
      rw [getD_set_self data _ _ default hlen,
        getD_set_ne data _ default
          (fun hc => absurd hc.symm (Nat.ne_of_lt (PARENT_lt hj0)))]
      exact hC hj0 s hs0 hs2 hs1
    · rw [getD_set_ne data _ default (fun hc => hjh hc.symm)]
      by_cases hpj : PARENT j = hole
      · rw [hpj, getD_set_self data _ _ default hlen]
        exact hs3 j hj hjlen hpj
      · rw [getD_set_ne data _ default (fun hc => hpj hc.symm)]
        exact hA j hj hjlen hjh hpj
  · intro _
    rw [hs1, getD_set_self data _ _ default hlen]
    exact le_of_lt hcond
  · intro _ j hj hjlen hpj
    rw [List.length_set] at hjlen
    have hjs : hole < j := by
      have := hpj ▸ PARENT_lt hj
      omega
    rw [hs1, getD_set_self data _ _ default hlen,
      getD_set_ne data _ default (fun hc => absurd hc (Nat.ne_of_lt hjs))]
    have := hA j hj hjlen (Nat.ne_of_gt hjs)
      (by rw [hpj]; exact Nat.ne_of_gt hholes)
    rw [hpj] at this
    exact this

/-- With enough fuel, `popSift` started inside the invariant produces a
heap. -/
theorem popSift_isHeap (fuel : ℕ) (data : List Node) (hole : ℕ) (e : Node)
    (hlen : hole < data.length) (hfuel : data.length ≤ fuel + hole)
    (hinv : PopInv data hole e) : IsHeap (popSift fuel data hole e) := by
  induction fuel generalizing data hole with
  | zero => omega
  | succ fuel ih =>
    rw [popSift]
    by_cases hch : LEFT_CHILD hole < data.length
    · rw [if_pos hch]
      obtain ⟨hs0, hs1, hs2, hsge, hs3⟩ := popSmallest_facts data hole hch
      by_cases he : lesseq e (data.getD (popSmallest data hole) default)
      · rw [if_pos he]
        exact sift_stop data hole e hlen hinv.1 hinv.2.1
          (fun j hj hjlen hpj => le_trans he (hs3 j hj hjlen hpj))
      · rw [if_neg he]
        exact ih _ _ (by rw [List.length_set]; exact hs2)
          (by rw [List.length_set]; unfold LEFT_CHILD at hsge; omega)
          (pop_step data hole _ e hinv hlen hs0 hs1 hs2 hs3
            (lt_of_not_le he))
    · rw [if_neg hch]
      refine sift_stop data hole e hlen hinv.1 hinv.2.1 ?_
      intro j hj hjlen hpj
      rcases (PARENT_child_iff hj).mp hpj with hjl | hjr <;>
        (unfold LEFT_CHILD at hch; omega)

/-- `popSift` permutes the array exactly as directly writing the element
into the hole would. -/
theorem popSift_perm (fuel : ℕ) (data : List Node) (hole : ℕ) (e : Node)
    (hlen : hole < data.length) :
    (popSift fuel data hole e).Perm (data.set hole e) := by
  induction fuel generalizing data hole with
  | zero => exact List.Perm.refl _
  | succ fuel ih =>
    rw [popSift]
    by_cases hch : LEFT_CHILD hole < data.length
    · rw [if_pos hch]
      obtain ⟨hs0, hs1, hs2, hsge, _⟩ := popSmallest_facts data hole hch
      by_cases he : lesseq e (data.getD (popSmallest data hole) default)
      · rw [if_pos he]
      · rw [if_neg he]
        have hne : hole ≠ popSmallest data hole := by
          unfold LEFT_CHILD at hsge; omega
        have step := ih (data.set hole (data.getD (popSmallest data hole)
          default)) (popSmallest data hole) (by rw [List.length_set]; exact hs2)
        exact step.trans
          (set_copy_perm data hole (popSmallest data hole) e default hlen hs2
            hne)
    · rw [if_neg hch]

/-- Specification of `PQueue_pop` on a non-empty heap: it returns the
array's root, the remaining elements are a heap, the queue contents are
preserved, and the returned element is minimal. -/
theorem PQueue_pop_spec (a : Node) (as : List Node) (hh : IsHeap (a :: as)) :
    ∃ q', PQueue_pop (a :: as) = .ok (a, q') ∧ IsHeap q' ∧
      (a :: as).Perm (a :: q') ∧ ∀ x ∈ (a :: as), a.f ≤ x.f := by
  have hmin : ∀ x ∈ (a :: as), a.f ≤ x.f := by
    intro x hx
    rcases List.mem_iff_get.mp hx with ⟨⟨i, hi⟩, hxi⟩
    have := isHeap_root_min (a :: as) hh i hi
    rw [getD_eq_get _ default hi] at this
    rw [← hxi]
    exact this
  cases as with
  | nil =>
    refine ⟨[], rfl, ?_, List.Perm.refl _, hmin⟩
    intro j hj hjlen
    simp at hjlen
  | cons b bs =>
    refine ⟨_, rfl, ?_, ?_, hmin⟩
    · apply popSift_isHeap
      · simp [List.length_dropLast]
      · simp [List.length_dropLast]
      · refine ⟨?_, fun hc => absurd hc (lt_irrefl 0),
          fun hc => absurd hc (lt_irrefl 0)⟩
        intro j hj hjlen _ _
        rw [List.length_dropLast] at hjlen
        have hjfull : j < (a :: b :: bs).length := by
          simp at hjlen ⊢
          omega
        have hjfull' : j + 1 < (a :: b :: bs).length := by
          simp at hjlen ⊢
          omega
        have hpfull : PARENT j + 1 < (a :: b :: bs).length := by
          have := PARENT_lt hj
          simp at hjlen ⊢
          omega
        rw [getD_dropLast _ j default hjfull', getD_dropLast _ (PARENT j)
          default hpfull]
        exact hh j hj hjfull
    · have hperm := popSift_perm (b :: bs).length ((a :: b :: bs).dropLast) 0
        ((a :: b :: bs).getLast (by simp)) (by simp [List.length_dropLast])
      refine (List.Perm.cons a ?_).symm
      refine hperm.trans ?_
      have hdl : (a :: b :: bs).dropLast = a :: (b :: bs).dropLast := rfl
      have hgl : (a :: b :: bs).getLast (by simp) =
          (b :: bs).getLast (by simp) := List.getLast_cons (by simp)
      rw [hdl, hgl]
      show ((b :: bs).getLast (by simp) :: (b :: bs).dropLast).Perm (b :: bs)
      have hsing := List.perm_append_singleton ((b :: bs).getLast (by simp))
        ((b :: bs).dropLast)
      refine hsing.symm.trans ?_
      rw [List.dropLast_append_getLast (by simp)]

theorem isHeap_nil : IsHeap [] := by
  intro j hj hjlen
  simp at hjlen

/-- Running any valid operation sequence from a heap state keeps every pop
minimal. -/
theorem popsValid_minimal (ops : List HeapOp) :
    ∀ q : PQueue, IsHeap q → popsValid q ops = true → popsMinimal q ops := by
  induction ops with
  | nil => intro q _ _; trivial
  | cons op rest ih =>
    intro q hq hvalid
    cases op with
    | push e =>
      show popsMinimal (PQueue_push q e) rest
      exact ih _ (PQueue_push_isHeap q e hq) hvalid
    | pop =>
      cases q with
      | nil => simp [popsValid, PQueue_pop] at hvalid
      | cons a as =>
        obtain ⟨q', hpop, hheap, _, hmin⟩ := PQueue_pop_spec a as hq
        rw [popsValid, hpop] at hvalid
        show popsMinimal (a :: as) (HeapOp.pop :: rest)
        rw [popsMinimal, hpop]
        exact ⟨hmin, ih q' hheap hvalid⟩

/-- Popping everything off a heap yields its contents in non-decreasing
priority order. -/
theorem popAllFuel_spec (n : ℕ) :
    ∀ q : PQueue, IsHeap q → q.length ≤ n →
      (popAllFuel n q).Perm q ∧
        List.Sorted (· ≤ ·) ((popAllFuel n q).map Node.f) := by
  induction n with
  | zero =>
    intro q _ hlen
    have : q = [] := List.eq_nil_of_length_eq_zero (by omega)
    subst this
    exact ⟨List.Perm.refl _, List.sorted_nil⟩
  | succ n ih =>
    intro q hq hlen
    cases q with
    | nil => exact ⟨List.Perm.refl _, List.sorted_nil⟩
    | cons a as =>
      obtain ⟨q', hpop, hheap, hperm, hmin⟩ := PQueue_pop_spec a as hq
      rw [popAllFuel, hpop]
      have hlen' : q'.length ≤ n := by
        have := hperm.length_eq
        simp at this hlen
        omega
      obtain ⟨ihp, ihs⟩ := ih q' hheap hlen'
      constructor
      · exact (ihp.cons a).trans hperm.symm
      · rw [List.map_cons, List.sorted_cons]
        refine ⟨?_, ihs⟩
        intro b hb
        rcases List.mem_map.mp hb with ⟨x, hx, hxb⟩
        have hx' : x ∈ (a :: as) := hperm.mem_iff.mpr (.tail _ (ihp.subset hx))
        rw [← hxb]
        exact hmin x hx'

/-- Folding pushes preserves the heap invariant and the contents. -/
theorem pushAll_spec (es : List Node) :
    ∀ q : PQueue, IsHeap q →
      IsHeap (es.foldl PQueue_push q) ∧
        (es.foldl PQueue_push q).Perm (q ++ es) := by
  induction es with
  | nil =>
    intro q hq
    rw [List.foldl_nil, List.append_nil]
    exact ⟨hq, List.Perm.refl _⟩
  | cons e rest ih =>
    intro q hq
    rw [List.foldl_cons]
    obtain ⟨hh, hp⟩ := ih (PQueue_push q e) (PQueue_push_isHeap q e hq)
    refine ⟨hh, hp.trans ?_⟩
    have h1 : (PQueue_push q e ++ rest).Perm ((e :: q) ++ rest) :=
      (PQueue_push_perm q e).append_right rest
    refine h1.trans ?_
    show (e :: (q ++ rest)).Perm (q ++ e :: rest)
    exact List.perm_middle.symm

/-- C3: for every finite sequence of `PQueue_push` operations (duplicate
priorities allowed) interleaved with `PQueue_pop` operations on non-empty
queues, each pop returns an element whose priority `f` is minimal among the
elements currently in the queue; and pushing any multiset of elements and
then popping them all yields exactly those elements in non-decreasing
priority order. -/
theorem C3_pop_minimal :
    (∀ ops : List HeapOp, popsValid [] ops = true → popsMinimal [] ops) ∧
    (∀ es : List Node, (popAll (pushAll es)).Perm es ∧
      List.Sorted (· ≤ ·) ((popAll (pushAll es)).map Node.f)) := by
  constructor
  · intro ops hv
    exact popsValid_minimal ops [] isHeap_nil hv
  · intro es
    obtain ⟨hh, hp⟩ := pushAll_spec es [] isHeap_nil
    rw [List.nil_append] at hp
    obtain ⟨hperm, hsorted⟩ :=
      popAllFuel_spec (pushAll es).length (pushAll es) hh (le_refl _)
    exact ⟨hperm.trans hp, hsorted⟩

theorem C3_pop_minimal_witness :
    popsMinimal [] [HeapOp.push ⟨2, 1, 1⟩, HeapOp.push ⟨1, 2, 2⟩,
      HeapOp.pop, HeapOp.pop] :=
  C3_pop_minimal.1 _ (by decide)

/-! ## LuaMap lemmas -/

/-- Reading an already-resolved cell returns the cached value unchanged. -/
theorem LuaMap_read_cached (m : LuaMap) (x y : ℕ)
    (h : m.tiles.getD (tileIdx m x y) 0 ≠ LUAMAP_UNCACHED_TILE) :
    LuaMap_read m x y = .ok (m.tiles.getD (tileIdx m x y) 0, m) := by
  simp only [LuaMap_read]
  rw [if_pos h]

/-- Reading an uncached cell of a bound map queries the source, caches the
resolved value and returns it. -/
theorem LuaMap_read_uncached (m : LuaMap) (x y : ℕ)
    (hs : m.tiles.getD (tileIdx m x y) 0 = LUAMAP_UNCACHED_TILE)
    (hb : m.tiles_index ≠ 0) :
    LuaMap_read m x y = .ok (resolveTile (m.source x y) m.default_value,
      { m with
        tiles := m.tiles.set (tileIdx m x y)
          (resolveTile (m.source x y) m.default_value)
        queries := m.queries ++ [(x, y)] }) := by
  simp only [LuaMap_read]
  rw [if_neg (not_not_intro hs), if_neg hb]

/-- Reading an uncached cell of an unbound map fails. -/
theorem LuaMap_read_unbound (m : LuaMap) (x y : ℕ)
    (hs : m.tiles.getD (tileIdx m x y) 0 = LUAMAP_UNCACHED_TILE)
    (hb : m.tiles_index = 0) :
    LuaMap_read m x y = .error .unboundRead := by
  simp only [LuaMap_read]
  rw [if_neg (not_not_intro hs), if_pos hb]

/-- In-range coordinates index inside the `(w+1)*(h+1)` backing store. -/
theorem tileIdx_lt (m : LuaMap) {x y : ℕ} (hx : 1 ≤ x) (hxw : x ≤ m.w)
    (hy : 1 ≤ y) (hyh : y ≤ m.h) :
    tileIdx m x y < (m.w + 1) * (m.h + 1) := by
  unfold tileIdx
  have h2 : (y - 1) * m.w ≤ (m.h - 1) * m.w :=
    Nat.mul_le_mul_right _ (by omega)
  have h4 : (m.h - 1) * m.w ≤ m.h * m.w := Nat.mul_le_mul_right _ (by omega)
  have h5 : m.h * m.w = m.w * m.h := Nat.mul_comm _ _
  have h3 : (m.w + 1) * (m.h + 1) = m.w * m.h + m.w + m.h + 1 := by ring
  omega

/-- The flat index map `(x, y) ↦ (x-1) + (y-1)*w` is injective on
`[1,w] × [1,h]`. -/
theorem tileIdx_inj (m : LuaMap) {x y x' y' : ℕ}
    (hx : 1 ≤ x) (hxw : x ≤ m.w) (hy : 1 ≤ y)
    (hx' : 1 ≤ x') (hxw' : x' ≤ m.w) (hy' : 1 ≤ y')
    (heq : tileIdx m x y = tileIdx m x' y') : x = x' ∧ y = y' := by
  have hw : 0 < m.w := by omega
  unfold tileIdx at heq
  have hm : ((x - 1) + (y - 1) * m.w) % m.w = (x - 1) % m.w :=
    Nat.add_mul_mod_self_right _ _ _
  have hm' : ((x' - 1) + (y' - 1) * m.w) % m.w = (x' - 1) % m.w :=
    Nat.add_mul_mod_self_right _ _ _
  have hxm : (x - 1) % m.w = x - 1 := Nat.mod_eq_of_lt (by omega)
  have hxm' : (x' - 1) % m.w = x' - 1 := Nat.mod_eq_of_lt (by omega)
  have hxx : x - 1 = x' - 1 := by
    rw [← hxm, ← hxm', ← hm, ← hm', heq]
  have hyy : (y - 1) * m.w = (y' - 1) * m.w := by omega
  have : y - 1 = y' - 1 := Nat.eq_of_mul_eq_mul_right hw hyy
  omega

/-- C4: for a read-through Grid, reading an in-range uncached cell queries
the external source at `(x, y)` and resolves the answer: boolean `true` ↦
999999, boolean `false` ↦ 1, an absent/nil value ↦ the configured default,
a numeric value passes through unchanged; the resolved value is stored
into the cache (and the query logged) before being returned, and reading
an already-resolved cell returns the cached value. -/
theorem C4_read_through (m : LuaMap) (x y : ℕ) (hb : m.tiles_index ≠ 0)
    (_hx : 1 ≤ x) (_hxw : x ≤ m.w) (_hy : 1 ≤ y) (_hyh : y ≤ m.h) :
    (m.tiles.getD (tileIdx m x y) 0 ≠ LUAMAP_UNCACHED_TILE →
      LuaMap_read m x y = .ok (m.tiles.getD (tileIdx m x y) 0, m)) ∧
    (m.tiles.getD (tileIdx m x y) 0 = LUAMAP_UNCACHED_TILE →
      LuaMap_read m x y =
        .ok (resolveTile (m.source x y) m.default_value,
          { m with
            tiles := m.tiles.set (tileIdx m x y)
              (resolveTile (m.source x y) m.default_value)
            queries := m.queries ++ [(x, y)] }) ∧
      resolveTile (.boolean true) m.default_value = 999999 ∧
      resolveTile (.boolean false) m.default_value = 1 ∧
      resolveTile .nil m.default_value = m.default_value ∧
      (∀ q : disttype, resolveTile (.num q) m.default_value = q)) := by
  constructor
  · intro h
    exact LuaMap_read_cached m x y h
  · intro hs
    exact ⟨LuaMap_read_uncached m x y hs hb, rfl, rfl, rfl, fun _ => rfl⟩

theorem C4_read_through_witness :
    LuaMap_read c4map 1 1 =
      .ok (c4map.tiles.getD (tileIdx c4map 1 1) 0, c4map) ∧
    LuaMap_read c4map 2 1 =
      .ok (resolveTile (c4map.source 2 1) c4map.default_value,
        { c4map with
          tiles := c4map.tiles.set (tileIdx c4map 2 1)
            (resolveTile (c4map.source 2 1) c4map.default_value)
          queries := c4map.queries ++ [(2, 1)] }) :=
  ⟨(C4_read_through c4map 1 1 (by decide) (by decide) (by decide) (by decide)
      (by decide)).1 (by decide),
    ((C4_read_through c4map 2 1 (by decide) (by decide) (by decide)
      (by decide) (by decide)).2 (by decide)).1⟩

/-- C10: writing a non-sentinel value `v` to an in-range cell makes an
immediate read of that cell return `v`, and leaves the value read at every
other in-range coordinate unchanged (the flat index is injective). -/
theorem C10_write_read (m : LuaMap) (x y x' y' : ℕ) (v : disttype)
    (hx : 1 ≤ x) (hxw : x ≤ m.w) (hy : 1 ≤ y) (hyh : y ≤ m.h)
    (hx' : 1 ≤ x') (hxw' : x' ≤ m.w) (hy' : 1 ≤ y') (_hyh' : y' ≤ m.h)
    (hv : v ≠ LUAMAP_UNCACHED_TILE) (hne : (x, y) ≠ (x', y'))
    (hlen : m.tiles.length = (m.w + 1) * (m.h + 1)) :
    LuaMap_read (LuaMap_write m x y v) x y = .ok (v, LuaMap_write m x y v) ∧
    Except.map Prod.fst (LuaMap_read (LuaMap_write m x y v) x' y') =
      Except.map Prod.fst (LuaMap_read m x' y') := by
  have hidx : tileIdx m x y < m.tiles.length := by
    rw [hlen]; exact tileIdx_lt m hx hxw hy hyh
  have hWxy : ∀ a b : ℕ, tileIdx (LuaMap_write m x y v) a b = tileIdx m a b :=
    fun a b => rfl
  have hget : (LuaMap_write m x y v).tiles.getD (tileIdx m x y) 0 = v := by
    show (m.tiles.set (tileIdx m x y) v).getD (tileIdx m x y) 0 = v
    exact getD_set_self _ _ _ _ hidx
  have hne' : tileIdx m x y ≠ tileIdx m x' y' := by
    intro hc
    obtain ⟨hxx, hyy⟩ := tileIdx_inj m hx hxw hy hx' hxw' hy' hc
    exact hne (by rw [hxx, hyy])
  have hget' : (LuaMap_write m x y v).tiles.getD (tileIdx m x' y') 0 =
      m.tiles.getD (tileIdx m x' y') 0 := by
    show (m.tiles.set (tileIdx m x y) v).getD (tileIdx m x' y') 0 = _
    exact getD_set_ne _ _ _ hne'
  constructor
  · have := LuaMap_read_cached (LuaMap_write m x y v) x y
      (by rw [hWxy, hget]; exact hv)
    rw [this, hWxy, hget]
  · by_cases hs : m.tiles.getD (tileIdx m x' y') 0 = LUAMAP_UNCACHED_TILE
    · by_cases hb : m.tiles_index = 0
      · rw [LuaMap_read_unbound m x' y' hs hb,
          LuaMap_read_unbound (LuaMap_write m x y v) x' y'
            (by rw [hWxy, hget']; exact hs) hb]
      · rw [LuaMap_read_uncached m x' y' hs hb,
          LuaMap_read_uncached (LuaMap_write m x y v) x' y'
            (by rw [hWxy, hget']; exact hs) hb]
        rfl
    · rw [LuaMap_read_cached m x' y' hs,
        LuaMap_read_cached (LuaMap_write m x y v) x' y'
          (by rw [hWxy, hget']; exact hs)]
      rw [hWxy, hget']
      rfl

theorem C10_write_read_witness :
    LuaMap_read (LuaMap_write (LuaMap_new 2 2 9) 1 1 5) 1 1 =
      .ok (5, LuaMap_write (LuaMap_new 2 2 9) 1 1 5) ∧
    Except.map Prod.fst (LuaMap_read (LuaMap_write (LuaMap_new 2 2 9) 1 1 5)
      2 1) = Except.map Prod.fst (LuaMap_read (LuaMap_new 2 2 9) 2 1) :=
  C10_write_read (LuaMap_new 2 2 9) 1 1 2 1 5 (by decide) (by decide)
    (by decide) (by decide) (by decide) (by decide) (by decide) (by decide)
    (by decide) (by decide) (by decide)

theorem getD_eq_default_of_le {α : Type} (l : List α) (d : α) {i : ℕ}
    (h : l.length ≤ i) : l.getD i d = d := by
  induction l generalizing i with
  | nil => rfl
  | cons a t ih =>
    cases i with
    | zero => simp at h
    | succ n =>
      simp only [List.getD_cons_succ]
      exact ih (by simpa using h)

/-- A cell holding the sentinel is inside the backing list (out-of-range
reads yield the default 0, which is not the sentinel). -/
theorem sentinel_lt_length (l : List disttype) {i : ℕ}
    (h : l.getD i 0 = LUAMAP_UNCACHED_TILE) : i < l.length := by
  by_contra hge
  rw [getD_eq_default_of_le l 0 (by omega)] at h
  exact absurd h (by decide)

theorem getD_map_range' {α : Type} (s n : ℕ) (f : ℕ → α) (i : ℕ) (d : α)
    (h : i < n) : ((List.range' s n).map f).getD i d = f (s + i) := by
  have hlen : i < ((List.range' s n).map f).length := by simp [h]
  rw [getD_eq_get _ d hlen]
  simp [List.get_eq_getElem, List.getElem_map, List.getElem_range']

/-- The cell of the exported grid at coordinate `(x, y)`: boolean false if
still uncached, otherwise the number. -/
theorem LuaMap_push_cell (m : LuaMap) (x y : ℕ) (hx : 1 ≤ x) (hxw : x ≤ m.w)
    (hy : 1 ≤ y) (hyh : y ≤ m.h) :
    ((LuaMap_push m).getD (x - 1) []).getD (y - 1) (.num 0) =
      (if m.tiles.getD (tileIdx m x y) 0 = LUAMAP_UNCACHED_TILE
       then .boolean false
       else .num (m.tiles.getD (tileIdx m x y) 0)) := by
  unfold LuaMap_push
  rw [getD_map_range' 1 m.w _ (x - 1) [] (by omega),
    show 1 + (x - 1) = x by omega]
  have h2 := getD_map_range' 1 m.h
    (fun yy =>
      let value := m.tiles.getD (tileIdx m x yy) 0
      if value = LUAMAP_UNCACHED_TILE then LuaVal.boolean false
      else LuaVal.num value)
    (y - 1) (LuaVal.num 0) (by omega)
  rw [h2, show 1 + (y - 1) = y by omega]

/-- C9: writing the internal uncached-sentinel value −424242 via
`LuaMap_write` leaves the cell in the uncached state, for any Grid: a
subsequent `LuaMap_push` renders the cell as the unset marker (boolean
false), not the number −424242, and — when the Grid is read-through
(tied to a table) — a subsequent `LuaMap_read` re-queries the external
source (logging a fresh query and returning the resolved source value)
instead of returning the written value. -/
theorem C9_sentinel_write (m : LuaMap) (x y : ℕ)
    (hx : 1 ≤ x) (hxw : x ≤ m.w) (hy : 1 ≤ y) (hyh : y ≤ m.h)
    (hlen : m.tiles.length = (m.w + 1) * (m.h + 1)) :
    ((LuaMap_push (LuaMap_write m x y (-424242))).getD (x - 1) []).getD
        (y - 1) (.num 0) = .boolean false ∧
    (m.tiles_index ≠ 0 →
      Except.map (fun r => (r.1, r.2.queries))
          (LuaMap_read (LuaMap_write m x y (-424242)) x y) =
        .ok (resolveTile (m.source x y) m.default_value,
          m.queries ++ [(x, y)])) := by
  have hidx : tileIdx m x y < m.tiles.length := by
    rw [hlen]; exact tileIdx_lt m hx hxw hy hyh
  have hget : (LuaMap_write m x y (-424242)).tiles.getD
      (tileIdx (LuaMap_write m x y (-424242)) x y) 0 = LUAMAP_UNCACHED_TILE := by
    show (m.tiles.set (tileIdx m x y) (-424242)).getD (tileIdx m x y) 0 = _
    rw [getD_set_self _ _ _ _ hidx]
    rfl
  constructor
  · rw [LuaMap_push_cell (LuaMap_write m x y (-424242)) x y hx hxw hy hyh,
      if_pos hget]
  · intro hb
    rw [LuaMap_read_uncached (LuaMap_write m x y (-424242)) x y hget hb]
    rfl

/-- Witness for C9 at two concrete grids: a self-contained 1×1 map
(`LuaMap_new`, not tied to a table — the kind `LuaMap_push` exports in
the program) whose export shows boolean false after the sentinel write,
and a read-through 1×1 map showing both the export and the re-query. -/
theorem C9_sentinel_write_witness :
    (((LuaMap_push (LuaMap_write (LuaMap_new 1 1 7) 1 1 (-424242))).getD
        0 []).getD 0 (LuaVal.num 0) = .boolean false) ∧
    (((LuaMap_push (LuaMap_write (LuaMap_from_table
        (fun _ _ => LuaVal.num 3) 0 1 1 0) 1 1 (-424242))).getD 0 []).getD
        0 (LuaVal.num 0) = .boolean false) ∧
    Except.map (fun r => (r.1, r.2.queries))
        (LuaMap_read (LuaMap_write (LuaMap_from_table
          (fun _ _ => LuaVal.num 3) 0 1 1 0) 1 1 (-424242)) 1 1) =
      .ok (3, [(1, 1)]) :=
  ⟨(C9_sentinel_write (LuaMap_new 1 1 7) 1 1 (by decide) (by decide)
      (by decide) (by decide) (by decide)).1,
   (C9_sentinel_write (LuaMap_from_table (fun _ _ => LuaVal.num 3) 0 1 1 0)
      1 1 (by decide) (by decide) (by decide) (by decide) (by decide)).1,
   (C9_sentinel_write (LuaMap_from_table (fun _ _ => LuaVal.num 3) 0 1 1 0)
      1 1 (by decide) (by decide) (by decide) (by decide) (by decide)).2
     (by decide)⟩

/-- C5 counterexample: through a read-through Grid whose source holds the
number −424242 (the internal uncached sentinel) at a tile, that tile is
re-queried by every read: two reads make two external queries, refuting
"each distinct coordinate is queried at most once". -/
theorem C5_counterexample :
    (readSeq (LuaMap_from_table (fun _ _ => LuaVal.num (-424242)) 0 1 1 0)
        [(1, 1), (1, 1)]).queries.count (1, 1) = 2 := by decide

/-- Invariant of read sequences on a bound map whose resolutions avoid the
sentinel: every queried coordinate is resolved in the cache, and the query
log has no duplicates. -/
theorem readSeq_nodup (ps : List (ℕ × ℕ)) :
    ∀ m : LuaMap, m.tiles_index ≠ 0 →
      (∀ x y, resolveTile (m.source x y) m.default_value ≠
        LUAMAP_UNCACHED_TILE) →
      (∀ p ∈ m.queries,
        m.tiles.getD (tileIdx m p.1 p.2) 0 ≠ LUAMAP_UNCACHED_TILE) →
      m.queries.Nodup →
      (∀ p ∈ (readSeq m ps).queries,
        (readSeq m ps).tiles.getD (tileIdx (readSeq m ps) p.1 p.2) 0 ≠
          LUAMAP_UNCACHED_TILE) ∧
      (readSeq m ps).queries.Nodup := by
  induction ps with
  | nil => exact fun m _ _ hq hn => ⟨hq, hn⟩
  | cons p ps ih =>
    intro m hb hres hq hn
    by_cases hs : m.tiles.getD (tileIdx m p.1 p.2) 0 = LUAMAP_UNCACHED_TILE
    · have hread := LuaMap_read_uncached m p.1 p.2 hs hb
      have hstep : readSeq m (p :: ps) = readSeq
          { m with
            tiles := m.tiles.set (tileIdx m p.1 p.2)
              (resolveTile (m.source p.1 p.2) m.default_value)
            queries := m.queries ++ [(p.1, p.2)] } ps := by
        show List.foldl _ _ (p :: ps) = _
        rw [List.foldl_cons]
        show List.foldl _ (match LuaMap_read m p.1 p.2 with
          | .ok (_, m') => m'
          | .error _ => m) ps = _
        rw [hread]
        rfl
      rw [hstep]
      have hinrange := sentinel_lt_length m.tiles hs
      apply ih
      · exact hb
      · exact hres
      · intro p' hp'
        rcases List.mem_append.mp hp' with hold | hnew
        · show (m.tiles.set _ _).getD (tileIdx m p'.1 p'.2) 0 ≠ _
          by_cases hii : tileIdx m p.1 p.2 = tileIdx m p'.1 p'.2
          · rw [← hii, getD_set_self _ _ _ _ hinrange]
            exact hres p.1 p.2
          · rw [getD_set_ne _ _ _ hii]
            exact hq p' hold
        · have hpp : p' = (p.1, p.2) := by simpa using hnew
          subst hpp
          show (m.tiles.set _ _).getD (tileIdx m p.1 p.2) 0 ≠ _
          rw [getD_set_self _ _ _ _ hinrange]
          exact hres p.1 p.2
      · rw [List.nodup_append]
        refine ⟨hn, List.nodup_singleton _, ?_⟩
        intro q hqmem hqnew
        have hqp : q = (p.1, p.2) := by simpa using hqnew
        subst hqp
        exact absurd hs (hq _ hqmem)
    · have hread := LuaMap_read_cached m p.1 p.2 hs
      have hstep : readSeq m (p :: ps) = readSeq m ps := by
        show List.foldl _ _ (p :: ps) = _
        rw [List.foldl_cons]
        show List.foldl _ (match LuaMap_read m p.1 p.2 with
          | .ok (_, m') => m'
          | .error _ => m) ps = _
        rw [hread]
        rfl
      rw [hstep]
      exact ih m hb hres hq hn

/-- C5 (amended): for a read-through Grid, each distinct coordinate is
queried from the external source at most once across any sequence of
reads, provided no resolved source value equals the internal uncached
sentinel −424242; a tile resolving to the sentinel itself is re-queried on
every read (see the counterexample). -/
theorem nodup_count_le_one {α : Type} [BEq α] [LawfulBEq α] (l : List α)
    (h : l.Nodup) (a : α) : l.count a ≤ 1 := by
  induction l with
  | nil => simp
  | cons b t ih =>
    rw [List.nodup_cons] at h
    rw [List.count_cons]
    by_cases hba : b = a
    · subst hba
      have : t.count b = 0 := List.count_eq_zero.mpr h.1
      simp [this]
    · have : (b == a) = false := beq_false_of_ne hba
      simp [this]
      exact ih h.2

theorem C5_amended (m : LuaMap) (ps : List (ℕ × ℕ)) (hb : m.tiles_index ≠ 0)
    (hres : ∀ x y, resolveTile (m.source x y) m.default_value ≠
      LUAMAP_UNCACHED_TILE)
    (hq0 : m.queries = []) :
    ∀ p : ℕ × ℕ, (readSeq m ps).queries.count p ≤ 1 := by
  have h := readSeq_nodup ps m hb hres
    (by rw [hq0]; intro p hp; simp at hp) (by rw [hq0]; exact List.nodup_nil)
  exact fun p => nodup_count_le_one _ h.2 p

theorem C5_amended_witness :
    (readSeq (LuaMap_from_table (fun _ _ => LuaVal.num 3) 0 1 1 0)
        [(1, 1), (1, 1)]).queries.count (1, 1) ≤ 1 :=
  C5_amended (LuaMap_from_table (fun _ _ => LuaVal.num 3) 0 1 1 0)
    [(1, 1), (1, 1)] (by decide)
    (fun _ _ => by show (3 : ℚ) ≠ LUAMAP_UNCACHED_TILE; decide) rfl (1, 1)

/-! ## The uniform-cost scenario -/

/-- C1: on a 5×5 cost grid whose every cell resolves to 1, with
`maxcost = 10` and source `(3,3)`, `single_source_dijkstra_map` returns a
distance grid whose value at `(3,1)` is 2 (two straight steps) and whose
value at `(1,1)` is `2 + 2*0.001` (two diagonal steps, each carrying the
fixed 0.001 diagonal tie-breaking penalty), computed in the embedding's
exact-rational model of the `disttype` arithmetic. -/
theorem C1_uniform_grid :
    (single_source_dijkstra_map c1costmap 3 3 10 100).map (Except.map
      (fun dm => (dm.tiles.getD (tileIdx dm 3 1) 0,
        dm.tiles.getD (tileIdx dm 1 1) 0))) =
      some (.ok (2, 2 + 2 * (1/1000))) := by
  rw [show (2 + 2 * (1/1000) : disttype) = mkRat 1001 500 by
    rw [Rat.mkRat_eq_divInt, Rat.divInt_eq_div]; norm_num]
  decide

/-! ## Seeding phase of the multi-source map -/

theorem mem_coordList {w h : ℕ} {p : ℕ × ℕ} :
    p ∈ coordList w h ↔ 1 ≤ p.1 ∧ p.1 ≤ w ∧ 1 ≤ p.2 ∧ p.2 ≤ h := by
  unfold coordList
  simp only [List.mem_flatMap, List.mem_map, List.mem_range'_1]
  constructor
  · rintro ⟨a, ⟨ha1, ha2⟩, b, ⟨hb1, hb2⟩, hab⟩
    rw [← hab]
    exact ⟨ha1, by omega, hb1, by omega⟩
  · rintro ⟨h1, h2, h3, h4⟩
    exact ⟨p.1, ⟨h1, by omega⟩, p.2, ⟨h3, by omega⟩, rfl⟩

theorem coordList_nodup (w h : ℕ) : (coordList w h).Nodup := by
  unfold coordList
  rw [List.nodup_flatMap]
  constructor
  · intro x _
    exact (List.nodup_range' _ _).map
      (fun a b hab => by injection hab)
  · have hr := List.nodup_range' 1 w
    refine List.Pairwise.imp ?_ hr
    intro a b hab
    intro q hqa hqb
    rcases List.mem_map.mp hqa with ⟨ya, _, hya⟩
    rcases List.mem_map.mp hqb with ⟨yb, _, hyb⟩
    apply hab
    have : a = q.1 := by rw [← hya]
    have hb : b = q.1 := by rw [← hyb]
    omega

/-- One iteration of the seeding loop, given the read succeeds: push the
read value if it is `< maxcost`, then overwrite the tile with `maxcost`. -/
theorem mseedCell_eq (maxcost : disttype) (pq : PQueue) (m : LuaMap)
    (p : ℕ × ℕ) (v : disttype) (dm : LuaMap)
    (hread : LuaMap_read m p.1 p.2 = .ok (v, dm)) :
    mseedCell maxcost (pq, m) p = .ok
      ((if v < maxcost then PQueue_push pq ⟨v, p.1, p.2⟩ else pq),
        LuaMap_write dm p.1 p.2 maxcost) := by
  unfold mseedCell
  rw [hread]
  rfl

/-- A successful read returns `cellVal` and a map whose overwrite-with-
`maxcost` has predictable tiles; shared shape of the cached and uncached
cases. -/
theorem read_step (m : LuaMap) (p : ℕ × ℕ)
    (hreadable : m.tiles_index ≠ 0 ∨
      m.tiles.getD (tileIdx m p.1 p.2) 0 ≠ LUAMAP_UNCACHED_TILE)
    (maxcost : disttype) :
    ∃ mm, LuaMap_read m p.1 p.2 = .ok (cellVal m p.1 p.2, mm) ∧
      mm.w = m.w ∧ mm.h = m.h ∧ mm.tiles_index = m.tiles_index ∧
      mm.source = m.source ∧ mm.default_value = m.default_value ∧
      (LuaMap_write mm p.1 p.2 maxcost).tiles =
        m.tiles.set (tileIdx m p.1 p.2) maxcost := by
  by_cases hs : m.tiles.getD (tileIdx m p.1 p.2) 0 = LUAMAP_UNCACHED_TILE
  · have hb : m.tiles_index ≠ 0 := by
      rcases hreadable with hb | hcontra
      · exact hb
      · exact absurd hs hcontra
    refine ⟨{ m with
        tiles := m.tiles.set (tileIdx m p.1 p.2)
          (resolveTile (m.source p.1 p.2) m.default_value)
        queries := m.queries ++ [(p.1, p.2)] }, ?_, rfl, rfl, rfl, rfl, rfl,
      ?_⟩
    · rw [LuaMap_read_uncached m p.1 p.2 hs hb]
      have : cellVal m p.1 p.2 =
          resolveTile (m.source p.1 p.2) m.default_value := by
        unfold cellVal
        rw [if_neg (not_not_intro hs)]
      rw [this]
    · show (m.tiles.set (tileIdx m p.1 p.2)
          (resolveTile (m.source p.1 p.2) m.default_value)).set
          (tileIdx m p.1 p.2) maxcost = m.tiles.set (tileIdx m p.1 p.2) maxcost
      exact List.set_set _ maxcost m.tiles _
  · refine ⟨m, ?_, rfl, rfl, rfl, rfl, rfl, rfl⟩
    rw [LuaMap_read_cached m p.1 p.2 hs]
    have : cellVal m p.1 p.2 = m.tiles.getD (tileIdx m p.1 p.2) 0 := by
      unfold cellVal
      rw [if_pos hs]
    rw [this]

/-- The seeding fold of `multiple_source_dijkstra_map` over a list of
distinct in-range coordinates: it succeeds, pushes exactly the coordinates
whose value is `< maxcost` (with `f` = that value), overwrites every
visited tile with `maxcost`, and touches nothing else. -/
theorem mseed_fold (maxcost : disttype) :
    ∀ (cs : List (ℕ × ℕ)) (pq : PQueue) (m : LuaMap),
      (∀ p ∈ cs, 1 ≤ p.1 ∧ p.1 ≤ m.w ∧ 1 ≤ p.2 ∧ p.2 ≤ m.h) →
      (∀ p ∈ cs, m.tiles_index ≠ 0 ∨
        m.tiles.getD (tileIdx m p.1 p.2) 0 ≠ LUAMAP_UNCACHED_TILE) →
      cs.Nodup →
      (m.w + 1) * (m.h + 1) ≤ m.tiles.length →
      ∃ pq' m', cs.foldlM (mseedCell maxcost) (pq, m) = .ok (pq', m') ∧
        pq'.Perm (pq ++ (cs.filter
          (fun q => decide (cellVal m q.1 q.2 < maxcost))).map
          (fun q => ⟨cellVal m q.1 q.2, q.1, q.2⟩)) ∧
        (∀ q ∈ cs, m'.tiles.getD (tileIdx m q.1 q.2) 0 = maxcost) ∧
        (∀ i, i ∉ cs.map (fun q => tileIdx m q.1 q.2) →
          m'.tiles.getD i 0 = m.tiles.getD i 0) ∧
        m'.w = m.w ∧ m'.h = m.h ∧ m'.tiles_index = m.tiles_index ∧
        m'.source = m.source ∧ m'.default_value = m.default_value ∧
        m'.tiles.length = m.tiles.length ∧ (IsHeap pq → IsHeap pq') := by
  intro cs
  induction cs with
  | nil =>
    intro pq m _ _ _ _
    refine ⟨pq, m, rfl, by simp, by simp, fun i _ => rfl, rfl, rfl, rfl, rfl,
      rfl, rfl, fun hq => hq⟩
  | cons p cs ih =>
    intro pq m hrange hreadable hnodup hlen
    obtain ⟨hp1, hp2, hp3, hp4⟩ := hrange p (List.mem_cons_self p cs)
    have hidxlt : tileIdx m p.1 p.2 < m.tiles.length :=
      lt_of_lt_of_le (tileIdx_lt m hp1 hp2 hp3 hp4) hlen
    obtain ⟨mm, hread, hw, hh, hti, hsrc, hdef, htiles⟩ :=
      read_step m p (hreadable p (List.mem_cons_self p cs)) maxcost
    have hnodup' := List.nodup_cons.mp hnodup
    have hcell := mseedCell_eq maxcost pq m p (cellVal m p.1 p.2) mm hread
    generalize hM : LuaMap_write mm p.1 p.2 maxcost = M at hcell htiles
    have hm1w : M.w = m.w := by rw [← hM]; exact hw
    have hm1h : M.h = m.h := by rw [← hM]; exact hh
    have hm1ti : M.tiles_index = m.tiles_index := by rw [← hM]; exact hti
    have hm1src : M.source = m.source := by rw [← hM]; exact hsrc
    have hm1def : M.default_value = m.default_value := by rw [← hM]; exact hdef
    have hm1len : M.tiles.length = m.tiles.length := by
      rw [htiles, List.length_set]
    have htib : ∀ a b : ℕ, tileIdx M a b = tileIdx m a b := by
      intro a b; unfold tileIdx; rw [hm1w]
    have hne : ∀ q ∈ cs, tileIdx m q.1 q.2 ≠ tileIdx m p.1 p.2 := by
      intro q hq hcontra
      obtain ⟨k1, k2, k3, _⟩ := hrange q (List.mem_cons_of_mem p hq)
      obtain ⟨hxx, hyy⟩ := tileIdx_inj m k1 k2 k3 hp1 hp2 hp3 hcontra
      apply hnodup'.1
      have hqp : q = p := Prod.ext hxx hyy
      rw [← hqp]
      exact hq
    have hcellpres : ∀ q ∈ cs, cellVal M q.1 q.2 = cellVal m q.1 q.2 := by
      intro q hq
      unfold cellVal
      rw [htib, hm1src, hm1def, htiles,
        getD_set_ne _ _ _ (fun hc => hne q hq hc.symm)]
    have hgetM : ∀ i, i ≠ tileIdx m p.1 p.2 →
        M.tiles.getD i 0 = m.tiles.getD i 0 := by
      intro i hi
      rw [htiles, getD_set_ne _ _ _ (fun hc => hi hc.symm)]
    have hgetMp : M.tiles.getD (tileIdx m p.1 p.2) 0 = maxcost := by
      rw [htiles]
      exact getD_set_self _ _ _ _ hidxlt
    have hfold : (p :: cs).foldlM (mseedCell maxcost) (pq, m) =
        cs.foldlM (mseedCell maxcost)
          ((if cellVal m p.1 p.2 < maxcost
            then PQueue_push pq ⟨cellVal m p.1 p.2, p.1, p.2⟩ else pq), M) := by
      rw [List.foldlM_cons, hcell]
      rfl
    obtain ⟨pq', m', hfold', hperm, hA, hB, hw', hh', hti', hsrc', hdef',
        hlen', hheap⟩ :=
      ih (if cellVal m p.1 p.2 < maxcost
          then PQueue_push pq ⟨cellVal m p.1 p.2, p.1, p.2⟩ else pq) M
        (by
          intro q hq
          rw [hm1w, hm1h]
          exact hrange q (List.mem_cons_of_mem p hq))
        (by
          intro q hq
          refine (hreadable q (List.mem_cons_of_mem p hq)).imp ?_ ?_
          · intro hb; rw [hm1ti]; exact hb
          · intro ht
            rw [htib, hgetM _ (hne q hq)]
            exact ht)
        hnodup'.2
        (by rw [hm1w, hm1h, hm1len]; exact hlen)
    have hseeds :
        (cs.filter (fun q => decide (cellVal M q.1 q.2 < maxcost))).map
          (fun q => (⟨cellVal M q.1 q.2, q.1, q.2⟩ : Node)) =
        (cs.filter (fun q => decide (cellVal m q.1 q.2 < maxcost))).map
          (fun q => (⟨cellVal m q.1 q.2, q.1, q.2⟩ : Node)) := by
      have hf : cs.filter (fun q => decide (cellVal M q.1 q.2 < maxcost)) =
          cs.filter (fun q => decide (cellVal m q.1 q.2 < maxcost)) :=
        List.filter_congr (fun q hq => by rw [hcellpres q hq])
      rw [hf]
      exact List.map_congr_left (fun q hq => by
        rw [hcellpres q (List.mem_of_mem_filter hq)])
    refine ⟨pq', m', hfold.trans hfold', ?_, ?_, ?_, hw'.trans hm1w,
      hh'.trans hm1h, hti'.trans hm1ti, hsrc'.trans hm1src,
      hdef'.trans hm1def, hlen'.trans hm1len, ?_⟩
    · rw [hseeds] at hperm
      by_cases hlt : cellVal m p.1 p.2 < maxcost
      · rw [if_pos hlt] at hperm
        have hfc : (p :: cs).filter
            (fun q => decide (cellVal m q.1 q.2 < maxcost)) =
            p :: cs.filter (fun q => decide (cellVal m q.1 q.2 < maxcost)) :=
          List.filter_cons_of_pos (by simpa using hlt)
        rw [hfc, List.map_cons]
        refine hperm.trans ?_
        have h1 := (PQueue_push_perm pq ⟨cellVal m p.1 p.2, p.1, p.2⟩
          ).append_right ((cs.filter
            (fun q => decide (cellVal m q.1 q.2 < maxcost))).map
            (fun q => (⟨cellVal m q.1 q.2, q.1, q.2⟩ : Node)))
        refine h1.trans ?_
        exact List.perm_middle.symm
      · rw [if_neg hlt] at hperm
        have hfc : (p :: cs).filter
            (fun q => decide (cellVal m q.1 q.2 < maxcost)) =
            cs.filter (fun q => decide (cellVal m q.1 q.2 < maxcost)) :=
          List.filter_cons_of_neg (by simpa using hlt)
        rw [hfc]
        exact hperm
    · intro q hq
      rcases List.mem_cons.mp hq with hq1 | hq2
      · subst hq1
        have hnotin : tileIdx m q.1 q.2 ∉
            cs.map (fun r => tileIdx M r.1 r.2) := by
          intro hmem
          rcases List.mem_map.mp hmem with ⟨r, hr, heq⟩
          rw [htib] at heq
          exact hne r hr heq
        rw [hB _ hnotin]
        exact hgetMp
      · have hAq := hA q hq2
        rw [htib] at hAq
        exact hAq
    · intro i hi
      rw [List.map_cons] at hi
      have hi1 : i ≠ tileIdx m p.1 p.2 := fun hc => hi (by
        rw [hc]; exact List.mem_cons_self _ _)
      have hi2 : i ∉ cs.map (fun r => tileIdx M r.1 r.2) := by
        intro hmem
        rcases List.mem_map.mp hmem with ⟨r, hr, heq⟩
        rw [htib] at heq
        exact hi (List.mem_cons_of_mem _ (List.mem_map.mpr ⟨r, hr, heq⟩))
      rw [hB i hi2, hgetM i hi1]
    · intro hq
      apply hheap
      by_cases hlt : cellVal m p.1 p.2 < maxcost
      · rw [if_pos hlt]
        exact PQueue_push_isHeap pq _ hq
      · rw [if_neg hlt]
        exact hq

/-- C2 counterexample: with a 1×1 distance grid holding 3 and
`maxcost = 9`, the cell is a seed (3 < 9) and is pushed with `f = 3`, but
at the end of the seeding phase — before the relaxation loop runs — the
cell holds 9 = maxcost, not its seed value 3.  This refutes "the seed
cells still holding their seed values at that point". -/
theorem C2_counterexample :
    (mseed (LuaMap_new 1 1 3) 9).map (fun r =>
      (r.1.map Node.f, r.2.tiles.getD (tileIdx r.2 1 1) 0)) =
      .ok ([3], 9) ∧ (3 : disttype) < 9 ∧ (9 : disttype) ≠ 3 :=
  ⟨by decide, by decide, by decide⟩

/-- C2 (amended): the seeding phase of `multiple_source_dijkstra_map`
treats exactly the cells of the caller-supplied distance grid holding a
value strictly less than `maxcost` as seeds, pushing each onto the queue
with starting priority `f` equal to that cell's value; before the
relaxation loop runs it resets EVERY in-range cell — the seed cells
included — to `maxcost`, the seed values surviving only in the queue. -/
theorem C2_amended (dm : LuaMap) (maxcost : disttype)
    (hread : ∀ x y, 1 ≤ x → x ≤ dm.w → 1 ≤ y → y ≤ dm.h →
      dm.tiles_index ≠ 0 ∨
        dm.tiles.getD (tileIdx dm x y) 0 ≠ LUAMAP_UNCACHED_TILE)
    (hlen : (dm.w + 1) * (dm.h + 1) ≤ dm.tiles.length) :
    ∃ pq dm', mseed dm maxcost = .ok (pq, dm') ∧
      pq.Perm (((coordList dm.w dm.h).filter
        (fun q => decide (cellVal dm q.1 q.2 < maxcost))).map
        (fun q => ⟨cellVal dm q.1 q.2, q.1, q.2⟩)) ∧
      (∀ x y, 1 ≤ x → x ≤ dm.w → 1 ≤ y → y ≤ dm.h →
        dm'.tiles.getD (tileIdx dm x y) 0 = maxcost) := by
  obtain ⟨pq', m', hfold, hperm, hA, _, _, _, _, _, _, _, _⟩ :=
    mseed_fold maxcost (coordList dm.w dm.h) [] dm
      (fun p hp => mem_coordList.mp hp)
      (fun p hp => by
        obtain ⟨h1, h2, h3, h4⟩ := mem_coordList.mp hp
        exact hread p.1 p.2 h1 h2 h3 h4)
      (coordList_nodup dm.w dm.h) hlen
  refine ⟨pq', m', hfold, ?_, ?_⟩
  · simpa using hperm
  · intro x y h1 h2 h3 h4
    exact hA (x, y) (mem_coordList.mpr ⟨h1, h2, h3, h4⟩)

theorem C2_amended_witness :
    ∃ pq dm', mseed (LuaMap_new 1 1 3) 9 = .ok (pq, dm') ∧
      pq.Perm (((coordList (LuaMap_new 1 1 3).w (LuaMap_new 1 1 3).h).filter
        (fun q => decide (cellVal (LuaMap_new 1 1 3) q.1 q.2 < 9))).map
        (fun q => ⟨cellVal (LuaMap_new 1 1 3) q.1 q.2, q.1, q.2⟩)) ∧
      (∀ x y, 1 ≤ x → x ≤ (LuaMap_new 1 1 3).w → 1 ≤ y →
        y ≤ (LuaMap_new 1 1 3).h →
        dm'.tiles.getD (tileIdx (LuaMap_new 1 1 3) x y) 0 = 9) :=
  C2_amended (LuaMap_new 1 1 3) 9
    (fun x y hx hxw hy hyh => Or.inr (by
      have hx1 : x = 1 := le_antisymm hxw hx
      have hy1 : y = 1 := le_antisymm hyh hy
      subst hx1
      subst hy1
      decide)) (by decide)

/-- C7 counterexample: with a 2×2 cost grid and a 1×1 distance grid —
dimensions differ — `multiple_source_dijkstra_map` reports no error at
all: the call completes normally and the distance grid's cell has been
rewritten from 10 to 9 (= maxcost). -/
theorem C7_counterexample :
    ((LuaMap_new 2 2 1).w, (LuaMap_new 2 2 1).h) ≠
      ((LuaMap_new 1 1 10).w, (LuaMap_new 1 1 10).h) ∧
    (multiple_source_dijkstra_map (LuaMap_new 2 2 1) (LuaMap_new 1 1 10) 9
        5).map (Except.map (fun r => r.2.tiles.getD (tileIdx r.2 1 1) 0)) =
      some (.ok 9) ∧ (9 : disttype) ≠ 10 :=
  ⟨by decide, by decide, by decide⟩

/-- C7 (amended): `multiple_source_dijkstra_map` performs no dimension
validation: even when the cost grid's and distance grid's dimensions
differ, the seeding phase completes without any error, the distance grid's
in-range cells are all rewritten to `maxcost` (over the distance grid's
own dimensions), and the call proceeds into the relaxation loop on the
seeded queue. -/
theorem C7_amended (cm dm : LuaMap) (maxcost : disttype) (fuel : ℕ)
    (_hdiff : (cm.w, cm.h) ≠ (dm.w, dm.h))
    (hread : ∀ x y, 1 ≤ x → x ≤ dm.w → 1 ≤ y → y ≤ dm.h →
      dm.tiles_index ≠ 0 ∨
        dm.tiles.getD (tileIdx dm x y) 0 ≠ LUAMAP_UNCACHED_TILE)
    (hlen : (dm.w + 1) * (dm.h + 1) ≤ dm.tiles.length) :
    ∃ pq dm', mseed dm maxcost = .ok (pq, dm') ∧
      (∀ x y, 1 ≤ x → x ≤ dm.w → 1 ≤ y → y ≤ dm.h →
        dm'.tiles.getD (tileIdx dm x y) 0 = maxcost) ∧
      multiple_source_dijkstra_map cm dm maxcost fuel =
        compute_dijkstra fuel pq cm dm' := by
  obtain ⟨pq', m', hfold, _, hA, _, _, _, _, _, _, _, _⟩ :=
    mseed_fold maxcost (coordList dm.w dm.h) [] dm
      (fun p hp => mem_coordList.mp hp)
      (fun p hp => by
        obtain ⟨h1, h2, h3, h4⟩ := mem_coordList.mp hp
        exact hread p.1 p.2 h1 h2 h3 h4)
      (coordList_nodup dm.w dm.h) hlen
  refine ⟨pq', m', hfold, ?_, ?_⟩
  · intro x y h1 h2 h3 h4
    exact hA (x, y) (mem_coordList.mpr ⟨h1, h2, h3, h4⟩)
  · unfold multiple_source_dijkstra_map
    rw [show mseed dm maxcost = .ok (pq', m') from hfold]

theorem C7_amended_witness :
    ∃ pq dm', mseed (LuaMap_new 1 1 10) 9 = .ok (pq, dm') ∧
      (∀ x y, 1 ≤ x → x ≤ (LuaMap_new 1 1 10).w → 1 ≤ y →
        y ≤ (LuaMap_new 1 1 10).h →
        dm'.tiles.getD (tileIdx (LuaMap_new 1 1 10) x y) 0 = 9) ∧
      multiple_source_dijkstra_map (LuaMap_new 2 2 1) (LuaMap_new 1 1 10) 9
        5 = compute_dijkstra 5 pq (LuaMap_new 2 2 1) dm' :=
  C7_amended (LuaMap_new 2 2 1) (LuaMap_new 1 1 10) 9 5 (by decide)
    (fun x y hx hxw hy hyh => Or.inr (by
      have hx1 : x = 1 := le_antisymm hxw hx
      have hy1 : y = 1 := le_antisymm hyh hy
      subst hx1
      subst hy1
      decide)) (by decide)

/-! ## Neighbour expansion -/

/-- Anatomy of any successful `LuaMap_read`: the returned value is
`cellVal`, the returned map differs at most by one cache fill at the read
cell and one query-log entry at the read coordinate. -/
theorem LuaMap_read_ok (m : LuaMap) (x y : ℕ) (v : disttype) (m' : LuaMap)
    (h : LuaMap_read m x y = .ok (v, m')) :
    v = cellVal m x y ∧
    m'.w = m.w ∧ m'.h = m.h ∧ m'.tiles_index = m.tiles_index ∧
    m'.source = m.source ∧ m'.default_value = m.default_value ∧
    (m'.queries = m.queries ∨ m'.queries = m.queries ++ [(x, y)]) ∧
    (m'.tiles = m.tiles ∨
      (m.tiles.getD (tileIdx m x y) 0 = LUAMAP_UNCACHED_TILE ∧
        m'.tiles = m.tiles.set (tileIdx m x y) (cellVal m x y))) := by
  by_cases hs : m.tiles.getD (tileIdx m x y) 0 = LUAMAP_UNCACHED_TILE
  · by_cases hb : m.tiles_index = 0
    · rw [LuaMap_read_unbound m x y hs hb] at h
      simp at h
    · rw [LuaMap_read_uncached m x y hs hb] at h
      simp only [Except.ok.injEq, Prod.mk.injEq] at h
      obtain ⟨hv, hm⟩ := h
      have hcv : cellVal m x y =
          resolveTile (m.source x y) m.default_value := by
        unfold cellVal
        rw [if_neg (not_not_intro hs)]
      subst hm
      exact ⟨by rw [hcv, hv], rfl, rfl, rfl, rfl, rfl, Or.inr rfl,
        Or.inr ⟨hs, by rw [hcv, hv]⟩⟩
  · rw [LuaMap_read_cached m x y hs] at h
    simp only [Except.ok.injEq, Prod.mk.injEq] at h
    obtain ⟨hv, hm⟩ := h
    have hcv : cellVal m x y = m.tiles.getD (tileIdx m x y) 0 := by
      unfold cellVal
      rw [if_pos hs]
    subst hm
    exact ⟨by rw [hcv, hv], rfl, rfl, rfl, rfl, rfl, Or.inl rfl, Or.inl rfl⟩

/-- C8: during neighbour expansion, a neighbour whose coordinate lies
outside `[1,w]×[1,h]` is skipped entirely — `dijvisit` returns the state
unchanged, performing no read of the cost grid, no read or write of the
distance grid, and no push; and whenever `dijvisit` succeeds, every queue
element it added carries an in-range coordinate and every external-source
query it performed (on either grid) was at the in-range neighbour
coordinate. -/
theorem C8_bounds_safety (pq : PQueue) (cm dm : LuaMap) (parent : Node)
    (xoff yoff : ℤ) :
    (((parent.x : ℤ) + xoff < 1 ∨ (parent.x : ℤ) + xoff > (cm.w : ℤ) ∨
        (parent.y : ℤ) + yoff < 1 ∨ (parent.y : ℤ) + yoff > (cm.h : ℤ)) →
      dijvisit pq cm dm parent xoff yoff = .ok (pq, cm, dm)) ∧
    (∀ pq' cm' dm',
      dijvisit pq cm dm parent xoff yoff = .ok (pq', cm', dm') →
      (∀ e ∈ pq', e ∈ pq ∨
        (1 ≤ e.x ∧ e.x ≤ cm.w ∧ 1 ≤ e.y ∧ e.y ≤ cm.h)) ∧
      (∀ q ∈ cm'.queries, q ∈ cm.queries ∨
        (1 ≤ q.1 ∧ q.1 ≤ cm.w ∧ 1 ≤ q.2 ∧ q.2 ≤ cm.h)) ∧
      (∀ q ∈ dm'.queries, q ∈ dm.queries ∨
        (1 ≤ q.1 ∧ q.1 ≤ cm.w ∧ 1 ≤ q.2 ∧ q.2 ≤ cm.h))) := by
  constructor
  · intro hout
    unfold dijvisit
    rw [if_pos hout]
  · intro pq' cm' dm' h
    unfold dijvisit at h
    by_cases hout : (parent.x : ℤ) + xoff < 1 ∨
        (parent.x : ℤ) + xoff > (cm.w : ℤ) ∨
        (parent.y : ℤ) + yoff < 1 ∨ (parent.y : ℤ) + yoff > (cm.h : ℤ)
    · rw [if_pos hout] at h
      simp only [Except.ok.injEq, Prod.mk.injEq] at h
      obtain ⟨h1, h2, h3⟩ := h
      subst h1
      subst h2
      subst h3
      exact ⟨fun e he => Or.inl he, fun q hq => Or.inl hq,
        fun q hq => Or.inl hq⟩
    · rw [if_neg hout] at h
      push_neg at hout
      obtain ⟨ho1, ho2, ho3, ho4⟩ := hout
      have hxin : 1 ≤ ((parent.x : ℤ) + xoff).toNat ∧
          ((parent.x : ℤ) + xoff).toNat ≤ cm.w := by omega
      have hyin : 1 ≤ ((parent.y : ℤ) + yoff).toNat ∧
          ((parent.y : ℤ) + yoff).toNat ≤ cm.h := by omega
      rcases hcm : LuaMap_read cm ((parent.x : ℤ) + xoff).toNat
          ((parent.y : ℤ) + yoff).toNat with er | ⟨cv, cm₁⟩ <;>
        rw [hcm] at h
      · simp at h
      · rcases hdm : LuaMap_read dm ((parent.x : ℤ) + xoff).toNat
            ((parent.y : ℤ) + yoff).toNat with er | ⟨dv, dm₁⟩ <;>
          rw [hdm] at h
        · simp at h
        · replace h : (if dijCost parent.f cv xoff yoff < dv then
              (Except.ok (PQueue_push pq ⟨dijCost parent.f cv xoff yoff,
                ((parent.x : ℤ) + xoff).toNat,
                ((parent.y : ℤ) + yoff).toNat⟩, cm₁, dm₁) :
                Except Err (PQueue × LuaMap × LuaMap))
            else .ok (pq, cm₁, dm₁)) = .ok (pq', cm', dm') := h
          obtain ⟨_, _, _, _, _, _, hq1, _⟩ :=
            LuaMap_read_ok cm _ _ cv cm₁ hcm
          obtain ⟨_, _, _, _, _, _, hq2, _⟩ :=
            LuaMap_read_ok dm _ _ dv dm₁ hdm
          have hmem : ∀ (mOld : LuaMap) (qs : List (ℕ × ℕ)),
              (qs = mOld.queries ∨ qs = mOld.queries ++
                [(((parent.x : ℤ) + xoff).toNat,
                  ((parent.y : ℤ) + yoff).toNat)]) →
              ∀ q ∈ qs, q ∈ mOld.queries ∨
                (1 ≤ q.1 ∧ q.1 ≤ cm.w ∧ 1 ≤ q.2 ∧ q.2 ≤ cm.h) := by
            intro mOld qs hqs q hq
            rcases hqs with hqs | hqs
            · left; rw [← hqs]; exact hq
            · rw [hqs] at hq
              rcases List.mem_append.mp hq with hq | hq
              · exact Or.inl hq
              · right
                have hqq : q = (((parent.x : ℤ) + xoff).toNat,
                    ((parent.y : ℤ) + yoff).toNat) := by simpa using hq
                rw [hqq]
                exact ⟨hxin.1, hxin.2, hyin.1, hyin.2⟩
          by_cases hlt : dijCost parent.f cv xoff yoff < dv
          · rw [if_pos hlt] at h
            simp only [Except.ok.injEq, Prod.mk.injEq] at h
            obtain ⟨h1, h2, h3⟩ := h
            subst h2
            subst h3
            refine ⟨?_, hmem cm _ hq1, hmem dm _ hq2⟩
            intro e he
            rw [← h1] at he
            have hmm := (PQueue_push_perm pq _).mem_iff.mp he
            rcases List.mem_cons.mp hmm with he1 | he2
            · right
              rw [he1]
              exact ⟨hxin.1, hxin.2, hyin.1, hyin.2⟩
            · exact Or.inl he2
          · rw [if_neg hlt] at h
            simp only [Except.ok.injEq, Prod.mk.injEq] at h
            obtain ⟨h1, h2, h3⟩ := h
            subst h1
            subst h2
            subst h3
            exact ⟨fun e he => Or.inl he, hmem cm _ hq1, hmem dm _ hq2⟩

theorem C8_bounds_safety_witness :
    dijvisit [] (LuaMap_new 2 2 1) (LuaMap_new 2 2 5) ⟨0, 1, 1⟩ (-1) 0 =
      .ok ([], LuaMap_new 2 2 1, LuaMap_new 2 2 5) :=
  (C8_bounds_safety [] (LuaMap_new 2 2 1) (LuaMap_new 2 2 5) ⟨0, 1, 1⟩
    (-1) 0).1 (by decide)

/-! ## Termination of the relaxation loop -/

theorem getD_set_self_or {α : Type} (l : List α) (i : ℕ) (v d : α) :
    (l.set i v).getD i d = v ∨
      (l.length ≤ i ∧ (l.set i v).getD i d = d) := by
  by_cases h : i < l.length
  · exact Or.inl (getD_set_self l i v d h)
  · right
    refine ⟨by omega, ?_⟩
    rw [getD_eq_default_of_le]
    rw [List.length_set]
    omega

/-- Under `costOk`, every cell value of the cost map is non-negative. -/
theorem costOk_cellVal (cm : LuaMap) (hc : costOk cm) (x y : ℕ) :
    0 ≤ cellVal cm x y := by
  unfold cellVal
  by_cases hs : cm.tiles.getD (tileIdx cm x y) 0 ≠ LUAMAP_UNCACHED_TILE
  · rw [if_pos hs]
    exact hc.1 _ hs
  · rw [if_neg hs]
    exact hc.2 x y

/-- A successful read preserves `costOk` (cache fills store resolved
values, which are non-negative). -/
theorem costOk_read (cm : LuaMap) (x y : ℕ) (v : disttype) (cm' : LuaMap)
    (hc : costOk cm) (h : LuaMap_read cm x y = .ok (v, cm')) :
    0 ≤ v ∧ costOk cm' := by
  obtain ⟨hv, hw, hh, _, hsrc, hdef, _, htiles⟩ := LuaMap_read_ok cm x y v cm' h
  subst hv
  refine ⟨costOk_cellVal cm hc x y, ?_, ?_⟩
  · intro i hi
    rcases htiles with ht | ⟨hsent, ht⟩
    · rw [ht] at hi ⊢
      exact hc.1 i hi
    · rw [ht] at hi ⊢
      by_cases hij : tileIdx cm x y = i
      · subst hij
        rcases getD_set_self_or cm.tiles (tileIdx cm x y)
            (cellVal cm x y) 0 with hg | ⟨_, hg⟩
        · rw [hg]
          exact costOk_cellVal cm hc x y
        · rw [hg]
      · rw [getD_set_ne _ _ _ hij] at hi ⊢
        exact hc.1 i hi
  · intro a b
    rw [hsrc, hdef]
    exact hc.2 a b

/-- A successful read never changes the value of a non-sentinel cell. -/
theorem read_preserves_resolved (m : LuaMap) (x y : ℕ) (v : disttype)
    (m' : LuaMap) (h : LuaMap_read m x y = .ok (v, m')) :
    ∀ i, m.tiles.getD i 0 ≠ LUAMAP_UNCACHED_TILE →
      m'.tiles.getD i 0 = m.tiles.getD i 0 := by
  intro i hi
  obtain ⟨_, _, _, _, _, _, _, htiles⟩ := LuaMap_read_ok m x y v m' h
  rcases htiles with ht | ⟨hsent, ht⟩
  · rw [ht]
  · rw [ht]
    by_cases hij : tileIdx m x y = i
    · subst hij
      exact absurd hsent hi
    · exact getD_set_ne _ _ _ hij

theorem PQueue_push_length (pq : PQueue) (e : Node) :
    (PQueue_push pq e).length = pq.length + 1 := by
  have hp := (PQueue_push_perm pq e).length_eq
  simpa using hp

/-- The visit cost is at least the parent's priority when the read cost is
non-negative. -/
theorem dijCost_ge (f cv : disttype) (xoff yoff : ℤ) (hcv : 0 ≤ cv) :
    f ≤ dijCost f cv xoff yoff := by
  unfold dijCost
  by_cases hd : xoff ≠ 0 ∧ yoff ≠ 0
  · rw [if_pos hd, dadd_eq, dadd_eq]
    have hp := DIAGONAL_PENALTY_pos
    linarith
  · rw [if_neg hd, dadd_eq]
    linarith

/-- What a successful `dijvisit` can do to the state: the cost map keeps
`costOk` and its dimensions, the distance map keeps its width and its
resolved cells, any added queue element has priority `≥ parent.f` and an
in-range coordinate, the heap shape is preserved, and the queue grows by
at most one element. -/
theorem dijvisit_ok (pq : PQueue) (cm dm : LuaMap) (parent : Node)
    (xoff yoff : ℤ) (pq' : PQueue) (cm' dm' : LuaMap) (hc : costOk cm)
    (h : dijvisit pq cm dm parent xoff yoff = .ok (pq', cm', dm')) :
    costOk cm' ∧ cm'.w = cm.w ∧ cm'.h = cm.h ∧ dm'.w = dm.w ∧
    (∀ e ∈ pq', e ∈ pq ∨ (parent.f ≤ e.f ∧ 1 ≤ e.x ∧ e.x ≤ cm.w ∧
      1 ≤ e.y ∧ e.y ≤ cm.h)) ∧
    (∀ i, dm.tiles.getD i 0 ≠ LUAMAP_UNCACHED_TILE →
      dm'.tiles.getD i 0 = dm.tiles.getD i 0) ∧
    (IsHeap pq → IsHeap pq') ∧
    pq.length ≤ pq'.length ∧ pq'.length ≤ pq.length + 1 := by
  unfold dijvisit at h
  by_cases hout : (parent.x : ℤ) + xoff < 1 ∨
      (parent.x : ℤ) + xoff > (cm.w : ℤ) ∨
      (parent.y : ℤ) + yoff < 1 ∨ (parent.y : ℤ) + yoff > (cm.h : ℤ)
  · rw [if_pos hout] at h
    simp only [Except.ok.injEq, Prod.mk.injEq] at h
    obtain ⟨h1, h2, h3⟩ := h
    subst h1
    subst h2
    subst h3
    exact ⟨hc, rfl, rfl, rfl, fun e he => Or.inl he, fun i _ => rfl,
      fun hq => hq, le_refl _, by omega⟩
  · rw [if_neg hout] at h
    push_neg at hout
    obtain ⟨ho1, ho2, ho3, ho4⟩ := hout
    have hxin : 1 ≤ ((parent.x : ℤ) + xoff).toNat ∧
        ((parent.x : ℤ) + xoff).toNat ≤ cm.w := by omega
    have hyin : 1 ≤ ((parent.y : ℤ) + yoff).toNat ∧
        ((parent.y : ℤ) + yoff).toNat ≤ cm.h := by omega
    rcases hcm : LuaMap_read cm ((parent.x : ℤ) + xoff).toNat
        ((parent.y : ℤ) + yoff).toNat with er | ⟨cv, cm₁⟩ <;>
      rw [hcm] at h
    · simp at h
    · rcases hdm : LuaMap_read dm ((parent.x : ℤ) + xoff).toNat
          ((parent.y : ℤ) + yoff).toNat with er | ⟨dv, dm₁⟩ <;>
        rw [hdm] at h
      · simp at h
      · replace h : (if dijCost parent.f cv xoff yoff < dv then
            (Except.ok (PQueue_push pq ⟨dijCost parent.f cv xoff yoff,
              ((parent.x : ℤ) + xoff).toNat,
              ((parent.y : ℤ) + yoff).toNat⟩, cm₁, dm₁) :
              Except Err (PQueue × LuaMap × LuaMap))
          else .ok (pq, cm₁, dm₁)) = .ok (pq', cm', dm') := h
        obtain ⟨hcv, hc1⟩ := costOk_read cm _ _ cv cm₁ hc hcm
        obtain ⟨_, hw1, hh1, _, _, _, _, _⟩ := LuaMap_read_ok cm _ _ cv cm₁ hcm
        obtain ⟨_, _, _, _, _, _, _, _⟩ := LuaMap_read_ok dm _ _ dv dm₁ hdm
        have hdmw : dm₁.w = dm.w := (LuaMap_read_ok dm _ _ dv dm₁ hdm).2.1
        have hdmpres := read_preserves_resolved dm _ _ dv dm₁ hdm
        by_cases hlt : dijCost parent.f cv xoff yoff < dv
        · rw [if_pos hlt] at h
          simp only [Except.ok.injEq, Prod.mk.injEq] at h
          obtain ⟨h1, h2, h3⟩ := h
          subst h2
          subst h3
          refine ⟨hc1, hw1, hh1, hdmw, ?_, hdmpres, ?_, ?_, ?_⟩
          · intro e he
            rw [← h1] at he
            have hmm := (PQueue_push_perm pq _).mem_iff.mp he
            rcases List.mem_cons.mp hmm with he1 | he2
            · right
              rw [he1]
              exact ⟨dijCost_ge parent.f cv xoff yoff hcv, hxin.1, hxin.2,
                hyin.1, hyin.2⟩
            · exact Or.inl he2
          · intro hq
            rw [← h1]
            exact PQueue_push_isHeap pq _ hq
          · rw [← h1, PQueue_push_length]
            omega
          · rw [← h1, PQueue_push_length]
        · rw [if_neg hlt] at h
          simp only [Except.ok.injEq, Prod.mk.injEq] at h
          obtain ⟨h1, h2, h3⟩ := h
          subst h1
          subst h2
          subst h3
          exact ⟨hc1, hw1, hh1, hdmw, fun e he => Or.inl he, hdmpres,
            fun hq => hq, le_refl _, by omega⟩

/-- `dijvisit` folded over any offset list (the neighbour-expansion double
loop). -/
theorem dijExpand_fold (parent : Node) :
    ∀ (offs : List (ℤ × ℤ)) (pq : PQueue) (cm dm : LuaMap)
      (pq' : PQueue) (cm' dm' : LuaMap), costOk cm →
      offs.foldlM (fun st off =>
        dijvisit st.1 st.2.1 st.2.2 parent off.1 off.2) (pq, cm, dm) =
        .ok (pq', cm', dm') →
      costOk cm' ∧ cm'.w = cm.w ∧ cm'.h = cm.h ∧ dm'.w = dm.w ∧
      (∀ e ∈ pq', e ∈ pq ∨ (parent.f ≤ e.f ∧ 1 ≤ e.x ∧ e.x ≤ cm.w ∧
        1 ≤ e.y ∧ e.y ≤ cm.h)) ∧
      (∀ i, dm.tiles.getD i 0 ≠ LUAMAP_UNCACHED_TILE →
        dm'.tiles.getD i 0 = dm.tiles.getD i 0) ∧
      (IsHeap pq → IsHeap pq') ∧ pq'.length ≤ pq.length + offs.length := by
  intro offs
  induction offs with
  | nil =>
    intro pq cm dm pq' cm' dm' hc h
    rw [List.foldlM_nil] at h
    replace h : (Except.ok (pq, cm, dm) :
        Except Err (PQueue × LuaMap × LuaMap)) = .ok (pq', cm', dm') := h
    simp only [Except.ok.injEq, Prod.mk.injEq] at h
    obtain ⟨h1, h2, h3⟩ := h
    subst h1
    subst h2
    subst h3
    exact ⟨hc, rfl, rfl, rfl, fun e he => Or.inl he, fun i _ => rfl,
      fun hq => hq, by omega⟩
  | cons off offs ih =>
    intro pq cm dm pq' cm' dm' hc h
    rw [List.foldlM_cons] at h
    rcases hv : dijvisit pq cm dm parent off.1 off.2 with er | ⟨pq₁, cm₁, dm₁⟩
    · replace h : (dijvisit pq cm dm parent off.1 off.2 >>= fun st =>
          offs.foldlM (fun st off =>
            dijvisit st.1 st.2.1 st.2.2 parent off.1 off.2) st) =
          .ok (pq', cm', dm') := h
      rw [hv] at h
      replace h : (Except.error er :
          Except Err (PQueue × LuaMap × LuaMap)) = .ok (pq', cm', dm') := h
      exact Except.noConfusion h
    · replace h : (dijvisit pq cm dm parent off.1 off.2 >>= fun st =>
          offs.foldlM (fun st off =>
            dijvisit st.1 st.2.1 st.2.2 parent off.1 off.2) st) =
          .ok (pq', cm', dm') := h
      rw [hv] at h
      replace h : offs.foldlM (fun st off =>
          dijvisit st.1 st.2.1 st.2.2 parent off.1 off.2) (pq₁, cm₁, dm₁) =
          .ok (pq', cm', dm') := h
      obtain ⟨hc1, hw1, hh1, hdw1, hmem1, hpres1, hheap1, hlo1, hhi1⟩ :=
        dijvisit_ok pq cm dm parent off.1 off.2 pq₁ cm₁ dm₁ hc hv
      obtain ⟨hc', hw', hh', hdw', hmem', hpres', hheap', hlen'⟩ :=
        ih pq₁ cm₁ dm₁ pq' cm' dm' hc1 h
      refine ⟨hc', hw'.trans hw1, hh'.trans hh1, hdw'.trans hdw1, ?_, ?_,
        fun hq => hheap' (hheap1 hq), by
          rw [List.length_cons]
          omega⟩
      · intro e he
        rcases hmem' e he with he1 | ⟨hef, hex1, hex2, hey1, hey2⟩
        · rcases hmem1 e he1 with he2 | he3
          · exact Or.inl he2
          · exact Or.inr he3
        · right
          rw [hw1] at hex2
          rw [hh1] at hey2
          exact ⟨hef, hex1, hex2, hey1, hey2⟩
      · intro i hi
        have hd1 : dm₁.tiles.getD i 0 = dm.tiles.getD i 0 := hpres1 i hi
        have hd2 : dm'.tiles.getD i 0 = dm₁.tiles.getD i 0 :=
          hpres' i (by rw [hd1]; exact hi)
        rw [hd2, hd1]

theorem ne_sentinel_of_nonneg {q : disttype} (h : 0 ≤ q) :
    q ≠ LUAMAP_UNCACHED_TILE := by
  intro hc
  rw [hc] at h
  norm_num [LUAMAP_UNCACHED_TILE] at h

/-- One unfolding of `compute_dijkstra` on a non-empty queue. -/
theorem compute_dijkstra_cons (fuel : ℕ) (a : Node) (as : List Node)
    (cm dm : LuaMap) (q' : PQueue)
    (hpop : PQueue_pop (a :: as) = .ok (a, q')) :
    compute_dijkstra (fuel + 1) (a :: as) cm dm =
      match LuaMap_read dm a.x a.y with
      | .error e => some (.error e)
      | .ok (dv, dm₁) =>
        if dv ≤ a.f then compute_dijkstra fuel q' cm dm₁
        else
          match dijExpand (q', cm, LuaMap_write dm₁ a.x a.y a.f) a with
          | .error e => some (.error e)
          | .ok (pq2, cm2, dm3) => compute_dijkstra fuel pq2 cm2 dm3 := by
  show (match PQueue_pop (a :: as) with
    | .error e => some (.error e)
    | .ok (node, pq') =>
      match LuaMap_read dm node.x node.y with
      | .error e => some (.error e)
      | .ok (dv, distmap') =>
        if dv ≤ node.f then compute_dijkstra fuel pq' cm distmap'
        else
          match dijExpand (pq', cm,
              LuaMap_write distmap' node.x node.y node.f) node with
          | .error e => some (.error e)
          | .ok (pq2, cm2, dm3) => compute_dijkstra fuel pq2 cm2 dm3 :
      Option (Except Err (LuaMap × LuaMap))) = _
  rw [hpop]

theorem compute_step_readerr (fuel : ℕ) (a : Node) (as : List Node)
    (cm dm : LuaMap) (q' : PQueue) (er : Err)
    (hpop : PQueue_pop (a :: as) = .ok (a, q'))
    (hrd : LuaMap_read dm a.x a.y = .error er) :
    compute_dijkstra (fuel + 1) (a :: as) cm dm = some (.error er) := by
  rw [compute_dijkstra_cons fuel a as cm dm q' hpop, hrd]

theorem compute_step_discard (fuel : ℕ) (a : Node) (as : List Node)
    (cm dm : LuaMap) (q' : PQueue) (dv : disttype) (dm₁ : LuaMap)
    (hpop : PQueue_pop (a :: as) = .ok (a, q'))
    (hrd : LuaMap_read dm a.x a.y = .ok (dv, dm₁)) (hge : dv ≤ a.f) :
    compute_dijkstra (fuel + 1) (a :: as) cm dm =
      compute_dijkstra fuel q' cm dm₁ := by
  rw [compute_dijkstra_cons fuel a as cm dm q' hpop, hrd]
  show (if dv ≤ a.f then compute_dijkstra fuel q' cm dm₁
    else match dijExpand (q', cm, LuaMap_write dm₁ a.x a.y a.f) a with
      | .error e => some (.error e)
      | .ok (pq2, cm2, dm3) => compute_dijkstra fuel pq2 cm2 dm3) = _
  rw [if_pos hge]

theorem compute_step_commit_err (fuel : ℕ) (a : Node) (as : List Node)
    (cm dm : LuaMap) (q' : PQueue) (dv : disttype) (dm₁ : LuaMap) (er : Err)
    (hpop : PQueue_pop (a :: as) = .ok (a, q'))
    (hrd : LuaMap_read dm a.x a.y = .ok (dv, dm₁)) (hge : ¬ dv ≤ a.f)
    (hexp : dijExpand (q', cm, LuaMap_write dm₁ a.x a.y a.f) a = .error er) :
    compute_dijkstra (fuel + 1) (a :: as) cm dm = some (.error er) := by
  rw [compute_dijkstra_cons fuel a as cm dm q' hpop, hrd]
  show (if dv ≤ a.f then compute_dijkstra fuel q' cm dm₁
    else match dijExpand (q', cm, LuaMap_write dm₁ a.x a.y a.f) a with
      | .error e => some (.error e)
      | .ok (pq2, cm2, dm3) => compute_dijkstra fuel pq2 cm2 dm3) = _
  rw [if_neg hge, hexp]

theorem compute_step_commit (fuel : ℕ) (a : Node) (as : List Node)
    (cm dm : LuaMap) (q' : PQueue) (dv : disttype) (dm₁ : LuaMap)
    (pq2 : PQueue) (cm2 dm3 : LuaMap)
    (hpop : PQueue_pop (a :: as) = .ok (a, q'))
    (hrd : LuaMap_read dm a.x a.y = .ok (dv, dm₁)) (hge : ¬ dv ≤ a.f)
    (hexp : dijExpand (q', cm, LuaMap_write dm₁ a.x a.y a.f) a =
      .ok (pq2, cm2, dm3)) :
    compute_dijkstra (fuel + 1) (a :: as) cm dm =
      compute_dijkstra fuel pq2 cm2 dm3 := by
  rw [compute_dijkstra_cons fuel a as cm dm q' hpop, hrd]
  show (if dv ≤ a.f then compute_dijkstra fuel q' cm dm₁
    else match dijExpand (q', cm, LuaMap_write dm₁ a.x a.y a.f) a with
      | .error e => some (.error e)
      | .ok (pq2, cm2, dm3) => compute_dijkstra fuel pq2 cm2 dm3) = _
  rw [if_neg hge, hexp]

/-- Termination of the relaxation loop, by induction on the number of
cells not yet committed (outer) and the queue length (inner): under
non-negative costs, each pop either only shrinks the queue (stale pops,
errors) or commits a fresh cell of the finite index set `P`. -/
theorem compute_term_aux (P : Finset ℕ) (W : ℕ) :
    ∀ k l (pq : PQueue) (cm dm : LuaMap) (C : Finset ℕ) (m : disttype),
      costOk cm → dm.w = W →
      (∀ e ∈ pq, m ≤ e.f) →
      (∀ i ∈ C, 0 ≤ dm.tiles.getD i 0 ∧ dm.tiles.getD i 0 ≤ m) →
      (∀ e ∈ pq, nodeIdx W e ∈ P) →
      (∀ x y : ℕ, 1 ≤ x → x ≤ cm.w → 1 ≤ y → y ≤ cm.h →
        (x - 1) + (y - 1) * W ∈ P) →
      C ⊆ P → 0 ≤ m → IsHeap pq →
      P.card - C.card ≤ k → pq.length ≤ l →
      ∃ fuel res, compute_dijkstra fuel pq cm dm = some res := by
  intro k
  induction k using Nat.strong_induction_on with
  | _ k ihk =>
  intro l
  induction l with
  | zero =>
    intro pq cm dm C m _ _ _ _ _ _ _ _ _ _ hlen
    have hpq : pq = [] := List.eq_nil_of_length_eq_zero (by omega)
    subst hpq
    exact ⟨1, .ok (cm, dm), rfl⟩
  | succ l ihl =>
    intro pq cm dm C m hcost hW hm hC hPq hPr hCP hm0 hheap hk hlen
    cases pq with
    | nil => exact ⟨1, .ok (cm, dm), rfl⟩
    | cons a as =>
      obtain ⟨q', hpop, hheapq, hperm, hmin⟩ := PQueue_pop_spec a as hheap
      have hma : m ≤ a.f := hm a (List.mem_cons_self a as)
      have hq'len : q'.length = as.length := by
        have hpl := hperm.length_eq
        simp at hpl
        omega
      have hq'sub : ∀ e ∈ q', e ∈ a :: as := fun e he =>
        hperm.symm.subset (List.mem_cons_of_mem a he)
      rcases hrd : LuaMap_read dm a.x a.y with er | ⟨dv, dm₁⟩
      · exact ⟨1, Except.error er,
          compute_step_readerr 0 a as cm dm q' er hpop hrd⟩
      · have hdv : dv = cellVal dm a.x a.y :=
          (LuaMap_read_ok dm _ _ dv dm₁ hrd).1
        have hdm₁w : dm₁.w = dm.w := (LuaMap_read_ok dm _ _ dv dm₁ hrd).2.1
        have hdm₁pres := read_preserves_resolved dm _ _ dv dm₁ hrd
        by_cases hge : dv ≤ a.f
        · obtain ⟨fuel, res, hrun⟩ := ihl q' cm dm₁ C m hcost
            (hdm₁w.trans hW)
            (fun e he => hm e (hq'sub e he))
            (fun i hi => by
              have hCi := hC i hi
              have hne' : dm.tiles.getD i 0 ≠ LUAMAP_UNCACHED_TILE :=
                ne_sentinel_of_nonneg hCi.1
              rw [hdm₁pres i hne']
              exact hCi)
            (fun e he => hPq e (hq'sub e he)) hPr hCP hm0 hheapq hk
            (by
              rw [hq'len]
              simp only [List.length_cons] at hlen
              omega)
          exact ⟨fuel + 1, res, (compute_step_discard fuel a as cm dm q' dv
            dm₁ hpop hrd hge).trans hrun⟩
        · have hidx : nodeIdx W a ∈ P := hPq a (List.mem_cons_self a as)
          have hnotC : nodeIdx W a ∉ C := by
            intro hin
            obtain ⟨hge0, hlem⟩ := hC _ hin
            have hne' : dm.tiles.getD (nodeIdx W a) 0 ≠
                LUAMAP_UNCACHED_TILE := ne_sentinel_of_nonneg hge0
            have htix : tileIdx dm a.x a.y = nodeIdx W a := by
              unfold tileIdx nodeIdx
              rw [hW]
            have hdvv : dv = dm.tiles.getD (nodeIdx W a) 0 := by
              rw [hdv]
              unfold cellVal
              rw [htix, if_pos hne']
            exact hge (hdvv ▸ le_trans hlem hma)
          rcases hexp : dijExpand (q', cm, LuaMap_write dm₁ a.x a.y a.f) a
            with er | ⟨pq2, cm2, dm3⟩
          · exact ⟨1, Except.error er, compute_step_commit_err 0 a as cm dm
              q' dv dm₁ er hpop hrd hge hexp⟩
          · have hfold : dijOffsets.foldlM (fun st off =>
                dijvisit st.1 st.2.1 st.2.2 a off.1 off.2)
                (q', cm, LuaMap_write dm₁ a.x a.y a.f) =
                .ok (pq2, cm2, dm3) := hexp
            obtain ⟨hc2, hw2, hh2, hdw2, hmem2, hpres2, hheap2, hlen2⟩ :=
              dijExpand_fold a dijOffsets q' cm
                (LuaMap_write dm₁ a.x a.y a.f) pq2 cm2 dm3 hcost hfold
            have haf0 : (0 : disttype) ≤ a.f := le_trans hm0 hma
            have htix₁ : tileIdx dm₁ a.x a.y = nodeIdx W a := by
              unfold tileIdx nodeIdx
              rw [hdm₁w, hW]
            have hw_tiles : (LuaMap_write dm₁ a.x a.y a.f).tiles =
                dm₁.tiles.set (nodeIdx W a) a.f := by
              show dm₁.tiles.set (tileIdx dm₁ a.x a.y) a.f = _
              rw [htix₁]
            have hget2 : 0 ≤ (LuaMap_write dm₁ a.x a.y a.f).tiles.getD
                (nodeIdx W a) 0 ∧
                (LuaMap_write dm₁ a.x a.y a.f).tiles.getD
                  (nodeIdx W a) 0 ≤ a.f := by
              rw [hw_tiles]
              rcases getD_set_self_or dm₁.tiles (nodeIdx W a) a.f 0 with
                hg | ⟨_, hg⟩
              · rw [hg]
                exact ⟨haf0, le_refl _⟩
              · rw [hg]
                exact ⟨le_refl 0, haf0⟩
            have hother : ∀ i ∈ C,
                0 ≤ (LuaMap_write dm₁ a.x a.y a.f).tiles.getD i 0 ∧
                (LuaMap_write dm₁ a.x a.y a.f).tiles.getD i 0 ≤ m := by
              intro i hi
              have hCi := hC i hi
              have hne' : dm.tiles.getD i 0 ≠ LUAMAP_UNCACHED_TILE :=
                ne_sentinel_of_nonneg hCi.1
              have hd1 : dm₁.tiles.getD i 0 = dm.tiles.getD i 0 :=
                hdm₁pres i hne'
              have hneq : nodeIdx W a ≠ i := fun hcon => hnotC (hcon ▸ hi)
              rw [hw_tiles, getD_set_ne _ _ _ hneq, hd1]
              exact hCi
            have hclt : C.card < P.card := by
              apply Finset.card_lt_card
              rw [Finset.ssubset_def]
              exact ⟨hCP, fun hPC => hnotC (hPC hidx)⟩
            obtain ⟨fuel, res, hrun⟩ := ihk (k - 1) (by omega) pq2.length
              pq2 cm2 dm3 (insert (nodeIdx W a) C) a.f hc2
              (hdw2.trans (hdm₁w.trans hW))
              (fun e he => by
                rcases hmem2 e he with he1 | ⟨hef, _⟩
                · exact hmin e (hq'sub e he1)
                · exact hef)
              (fun i hi => by
                rcases Finset.mem_insert.mp hi with hieq | hiC
                · subst hieq
                  have hne2 := ne_sentinel_of_nonneg hget2.1
                  rw [hpres2 _ hne2]
                  exact hget2
                · have hoth := hother i hiC
                  have hne2 := ne_sentinel_of_nonneg hoth.1
                  rw [hpres2 _ hne2]
                  exact ⟨hoth.1, le_trans hoth.2 hma⟩)
              (fun e he => by
                rcases hmem2 e he with he1 | ⟨_, hx1, hx2, hy1, hy2⟩
                · exact hPq e (hq'sub e he1)
                · exact hPr e.x e.y hx1 hx2 hy1 hy2)
              (fun x y h1 h2 h3 h4 => hPr x y h1 (by rw [hw2] at h2; exact h2)
                h3 (by rw [hh2] at h4; exact h4))
              (Finset.insert_subset_iff.mpr ⟨hidx, hCP⟩)
              haf0
              (hheap2 hheapq)
              (by
                rw [Finset.card_insert_of_not_mem hnotC]
                omega)
              (le_refl _)
            exact ⟨fuel + 1, res, (compute_step_commit fuel a as cm dm q' dv
              dm₁ pq2 cm2 dm3 hpop hrd hge hexp).trans hrun⟩

/-- The relaxation loop terminates from any heap state whose entries all
have non-negative `f`, over a cost map whose cells resolve non-negative. -/
theorem compute_terminates (pq : PQueue) (cm dm : LuaMap)
    (hcost : costOk cm) (hheap : IsHeap pq) (hpq0 : ∀ e ∈ pq, 0 ≤ e.f) :
    ∃ fuel res, compute_dijkstra fuel pq cm dm = some res := by
  classical
  obtain ⟨fuel, res, h⟩ := compute_term_aux
    (((coordList cm.w cm.h).map fun p =>
        (p.1 - 1) + (p.2 - 1) * dm.w).toFinset ∪
      (pq.map (nodeIdx dm.w)).toFinset) dm.w
    (((coordList cm.w cm.h).map fun p =>
        (p.1 - 1) + (p.2 - 1) * dm.w).toFinset ∪
      (pq.map (nodeIdx dm.w)).toFinset).card
    pq.length pq cm dm ∅ 0 hcost rfl hpq0
    (fun i hi => absurd hi (Finset.not_mem_empty i))
    (fun e he => Finset.mem_union_right _ (List.mem_toFinset.mpr
      (List.mem_map.mpr ⟨e, he, rfl⟩)))
    (fun x y h1 h2 h3 h4 => Finset.mem_union_left _ (List.mem_toFinset.mpr
      (List.mem_map.mpr ⟨(x, y), mem_coordList.mpr ⟨h1, h2, h3, h4⟩, rfl⟩)))
    (Finset.empty_subset _) (le_refl 0) hheap
    (by simp) (le_refl _)
  exact ⟨fuel, res, h⟩

theorem c6cm_costOk : costOk c6cm := by
  constructor
  · intro i _
    match i with
    | 0 => exact le_refl 0
    | 1 => exact le_refl 0
    | (n + 2) => exact le_refl 0
  · intro x y
    exact le_refl 0

theorem foldlM_step {σ α : Type} (f : σ → α → Except Err σ) (a : α)
    (l : List α) (b b' : σ) (h : f b a = .ok b') :
    (a :: l).foldlM f b = l.foldlM f b' := by
  rw [List.foldlM_cons, h]
  rfl

/-- Popping the sentinel-valued left cell steps to the symmetric state on
the right cell (one source query of `(2,1)` is logged). -/
theorem c6stepA (n : ℕ) (q : List (ℕ × ℕ)) :
    compute_dijkstra (n + 1) [c6A] c6cm (c6dm [100, LUAMAP_UNCACHED_TILE] q) =
    compute_dijkstra n [c6B] c6cm
      (c6dm [LUAMAP_UNCACHED_TILE, 100] (q ++ [(2, 1)])) := by
  have hpop : PQueue_pop [c6A] = .ok (c6A, []) := rfl
  have hrd : LuaMap_read (c6dm [100, LUAMAP_UNCACHED_TILE] q) 1 1 =
      .ok (100, c6dm [100, LUAMAP_UNCACHED_TILE] q) := rfl
  have hge : ¬ (100 : disttype) ≤ LUAMAP_UNCACHED_TILE := by decide
  have hW : LuaMap_write (c6dm [100, LUAMAP_UNCACHED_TILE] q) 1 1 c6A.f =
      c6dm [LUAMAP_UNCACHED_TILE, LUAMAP_UNCACHED_TILE] q := rfl
  have hv1 : dijvisit [] c6cm
      (c6dm [LUAMAP_UNCACHED_TILE, LUAMAP_UNCACHED_TILE] q) c6A (-1) (-1) =
      .ok ([], c6cm, c6dm [LUAMAP_UNCACHED_TILE, LUAMAP_UNCACHED_TILE] q) :=
    rfl
  have hv2 : dijvisit [] c6cm
      (c6dm [LUAMAP_UNCACHED_TILE, LUAMAP_UNCACHED_TILE] q) c6A (-1) 0 =
      .ok ([], c6cm, c6dm [LUAMAP_UNCACHED_TILE, LUAMAP_UNCACHED_TILE] q) :=
    rfl
  have hv3 : dijvisit [] c6cm
      (c6dm [LUAMAP_UNCACHED_TILE, LUAMAP_UNCACHED_TILE] q) c6A (-1) 1 =
      .ok ([], c6cm, c6dm [LUAMAP_UNCACHED_TILE, LUAMAP_UNCACHED_TILE] q) :=
    rfl
  have hv4 : dijvisit [] c6cm
      (c6dm [LUAMAP_UNCACHED_TILE, LUAMAP_UNCACHED_TILE] q) c6A 0 (-1) =
      .ok ([], c6cm, c6dm [LUAMAP_UNCACHED_TILE, LUAMAP_UNCACHED_TILE] q) :=
    rfl
  have hv5 : dijvisit [] c6cm
      (c6dm [LUAMAP_UNCACHED_TILE, LUAMAP_UNCACHED_TILE] q) c6A 0 1 =
      .ok ([], c6cm, c6dm [LUAMAP_UNCACHED_TILE, LUAMAP_UNCACHED_TILE] q) :=
    rfl
  have hv6 : dijvisit [] c6cm
      (c6dm [LUAMAP_UNCACHED_TILE, LUAMAP_UNCACHED_TILE] q) c6A 1 (-1) =
      .ok ([], c6cm, c6dm [LUAMAP_UNCACHED_TILE, LUAMAP_UNCACHED_TILE] q) :=
    rfl
  have hv7 : dijvisit [] c6cm
      (c6dm [LUAMAP_UNCACHED_TILE, LUAMAP_UNCACHED_TILE] q) c6A 1 0 =
      .ok ([c6B], c6cm,
        c6dm [LUAMAP_UNCACHED_TILE, 100] (q ++ [(2, 1)])) := rfl
  have hv8 : dijvisit [c6B] c6cm
      (c6dm [LUAMAP_UNCACHED_TILE, 100] (q ++ [(2, 1)])) c6A 1 1 =
      .ok ([c6B], c6cm,
        c6dm [LUAMAP_UNCACHED_TILE, 100] (q ++ [(2, 1)])) := rfl
  have hexp : dijExpand
      ([], c6cm, LuaMap_write (c6dm [100, LUAMAP_UNCACHED_TILE] q) 1 1 c6A.f)
      c6A =
      .ok ([c6B], c6cm, c6dm [LUAMAP_UNCACHED_TILE, 100] (q ++ [(2, 1)])) := by
    rw [hW]
    exact (foldlM_step _ _ _ _ _ hv1).trans
      ((foldlM_step _ _ _ _ _ hv2).trans
      ((foldlM_step _ _ _ _ _ hv3).trans
      ((foldlM_step _ _ _ _ _ hv4).trans
      ((foldlM_step _ _ _ _ _ hv5).trans
      ((foldlM_step _ _ _ _ _ hv6).trans
      ((foldlM_step _ _ _ _ _ hv7).trans
      ((foldlM_step _ _ _ _ _ hv8).trans rfl)))))))
  exact compute_step_commit n c6A [] c6cm (c6dm [100, LUAMAP_UNCACHED_TILE] q)
    [] 100 (c6dm [100, LUAMAP_UNCACHED_TILE] q) [c6B] c6cm
    (c6dm [LUAMAP_UNCACHED_TILE, 100] (q ++ [(2, 1)])) hpop hrd hge hexp

/-- Popping the sentinel-valued right cell steps back to the state on the
left cell (one source query of `(1,1)` is logged). -/
theorem c6stepB (n : ℕ) (q : List (ℕ × ℕ)) :
    compute_dijkstra (n + 1) [c6B] c6cm (c6dm [LUAMAP_UNCACHED_TILE, 100] q) =
    compute_dijkstra n [c6A] c6cm
      (c6dm [100, LUAMAP_UNCACHED_TILE] (q ++ [(1, 1)])) := by
  have hpop : PQueue_pop [c6B] = .ok (c6B, []) := rfl
  have hrd : LuaMap_read (c6dm [LUAMAP_UNCACHED_TILE, 100] q) 2 1 =
      .ok (100, c6dm [LUAMAP_UNCACHED_TILE, 100] q) := rfl
  have hge : ¬ (100 : disttype) ≤ LUAMAP_UNCACHED_TILE := by decide
  have hW : LuaMap_write (c6dm [LUAMAP_UNCACHED_TILE, 100] q) 2 1 c6B.f =
      c6dm [LUAMAP_UNCACHED_TILE, LUAMAP_UNCACHED_TILE] q := rfl
  have hw1 : dijvisit [] c6cm
      (c6dm [LUAMAP_UNCACHED_TILE, LUAMAP_UNCACHED_TILE] q) c6B (-1) (-1) =
      .ok ([], c6cm, c6dm [LUAMAP_UNCACHED_TILE, LUAMAP_UNCACHED_TILE] q) :=
    rfl
  have hw2 : dijvisit [] c6cm
      (c6dm [LUAMAP_UNCACHED_TILE, LUAMAP_UNCACHED_TILE] q) c6B (-1) 0 =
      .ok ([c6A], c6cm,
        c6dm [100, LUAMAP_UNCACHED_TILE] (q ++ [(1, 1)])) := rfl
  have hw3 : dijvisit [c6A] c6cm
      (c6dm [100, LUAMAP_UNCACHED_TILE] (q ++ [(1, 1)])) c6B (-1) 1 =
      .ok ([c6A], c6cm,
        c6dm [100, LUAMAP_UNCACHED_TILE] (q ++ [(1, 1)])) := rfl
  have hw4 : dijvisit [c6A] c6cm
      (c6dm [100, LUAMAP_UNCACHED_TILE] (q ++ [(1, 1)])) c6B 0 (-1) =
      .ok ([c6A], c6cm,
        c6dm [100, LUAMAP_UNCACHED_TILE] (q ++ [(1, 1)])) := rfl
  have hw5 : dijvisit [c6A] c6cm
      (c6dm [100, LUAMAP_UNCACHED_TILE] (q ++ [(1, 1)])) c6B 0 1 =
      .ok ([c6A], c6cm,
        c6dm [100, LUAMAP_UNCACHED_TILE] (q ++ [(1, 1)])) := rfl
  have hw6 : dijvisit [c6A] c6cm
      (c6dm [100, LUAMAP_UNCACHED_TILE] (q ++ [(1, 1)])) c6B 1 (-1) =
      .ok ([c6A], c6cm,
        c6dm [100, LUAMAP_UNCACHED_TILE] (q ++ [(1, 1)])) := rfl
  have hw7 : dijvisit [c6A] c6cm
      (c6dm [100, LUAMAP_UNCACHED_TILE] (q ++ [(1, 1)])) c6B 1 0 =
      .ok ([c6A], c6cm,
        c6dm [100, LUAMAP_UNCACHED_TILE] (q ++ [(1, 1)])) := rfl
  have hw8 : dijvisit [c6A] c6cm
      (c6dm [100, LUAMAP_UNCACHED_TILE] (q ++ [(1, 1)])) c6B 1 1 =
      .ok ([c6A], c6cm,
        c6dm [100, LUAMAP_UNCACHED_TILE] (q ++ [(1, 1)])) := rfl
  have hexp : dijExpand
      ([], c6cm, LuaMap_write (c6dm [LUAMAP_UNCACHED_TILE, 100] q) 2 1 c6B.f)
      c6B =
      .ok ([c6A], c6cm, c6dm [100, LUAMAP_UNCACHED_TILE] (q ++ [(1, 1)])) := by
    rw [hW]
    exact (foldlM_step _ _ _ _ _ hw1).trans
      ((foldlM_step _ _ _ _ _ hw2).trans
      ((foldlM_step _ _ _ _ _ hw3).trans
      ((foldlM_step _ _ _ _ _ hw4).trans
      ((foldlM_step _ _ _ _ _ hw5).trans
      ((foldlM_step _ _ _ _ _ hw6).trans
      ((foldlM_step _ _ _ _ _ hw7).trans
      ((foldlM_step _ _ _ _ _ hw8).trans rfl)))))))
  exact compute_step_commit n c6B [] c6cm (c6dm [LUAMAP_UNCACHED_TILE, 100] q)
    [] 100 (c6dm [LUAMAP_UNCACHED_TILE, 100] q) [c6A] c6cm
    (c6dm [100, LUAMAP_UNCACHED_TILE] (q ++ [(1, 1)])) hpop hrd hge hexp

/-- The two single-element queue states step to each other forever (the
query logs grow, but nothing else changes up to swapping the two cells). -/
theorem c6cycle : ∀ fuel : ℕ,
    (∀ q, compute_dijkstra fuel [c6A] c6cm
      (c6dm [100, LUAMAP_UNCACHED_TILE] q) = none) ∧
    (∀ q, compute_dijkstra fuel [c6B] c6cm
      (c6dm [LUAMAP_UNCACHED_TILE, 100] q) = none) := by
  intro fuel
  induction fuel with
  | zero => exact ⟨fun _ => rfl, fun _ => rfl⟩
  | succ n ih =>
    refine ⟨fun q => ?_, fun q => ?_⟩
    · exact (c6stepA n q).trans (ih.2 (q ++ [(2, 1)]))
    · exact (c6stepB n q).trans (ih.1 (q ++ [(1, 1)]))

theorem getD_replicate_nonneg (n : ℕ) (i : ℕ) (c : disttype) (hc : 0 ≤ c) :
    0 ≤ (List.replicate n c).getD i 0 := by
  induction n generalizing i with
  | zero => simp [List.getD]
  | succ n ih =>
    cases i with
    | zero =>
      rw [List.replicate_succ, List.getD_cons_zero]
      exact hc
    | succ j =>
      rw [List.replicate_succ, List.getD_cons_succ]
      exact ih j

theorem costOk_new (w h : ℕ) (c : disttype) (hc : 0 ≤ c) :
    costOk (LuaMap_new w h c) := by
  constructor
  · intro i _
    exact getD_replicate_nonneg ((w + 1) * (h + 1)) i c hc
  · intro x y
    exact le_refl 0

/-- C6 counterexample: the claim quantifies over *every* finite set of
seed elements, but a seed whose `f` equals the cache sentinel `-424242`
makes `compute_dijkstra` loop forever on a 2×1 grid all of whose costs
resolve to the non-negative value 0: committing the node stores the
sentinel in the distance map, so the cell reads back as uncached and the
two cells re-push each other with the same `f` on every pass.  The
stale-pop check never fires and the loop runs out of any fuel. -/
theorem C6_counterexample :
    costOk c6cm ∧ IsHeap [c6A] ∧
    ∀ fuel, compute_dijkstra fuel [c6A] c6cm
      (c6dm [100, LUAMAP_UNCACHED_TILE] []) = none :=
  ⟨c6cm_costOk,
   by
     intro j hj hlen
     simp only [List.length_singleton] at hlen
     omega,
   fun fuel => (c6cycle fuel).1 []⟩

/-- C6 (amended): over a cost map whose cells all resolve non-negative,
the relaxation loop terminates from every heap whose seed elements have
non-negative `f` (the stale-pop discard then only lets each cell commit
once, so only finitely many pushes and pops occur); consequently
`single_source_dijkstra_map` terminates unconditionally, and
`multiple_source_dijkstra_map` terminates whenever the caller's distance
map is table-backed, has enough backing cells, and its cells resolve
non-negative. -/
theorem C6_amended :
    (∀ (pq : PQueue) (cm dm : LuaMap), costOk cm → IsHeap pq →
      (∀ e ∈ pq, 0 ≤ e.f) →
      ∃ fuel res, compute_dijkstra fuel pq cm dm = some res) ∧
    (∀ (cm : LuaMap) (x y : ℕ) (maxcost : disttype), costOk cm →
      ∃ fuel res, single_source_dijkstra_map cm x y maxcost fuel = some res) ∧
    (∀ (cm dm : LuaMap) (maxcost : disttype), costOk cm →
      dm.tiles_index ≠ 0 →
      (dm.w + 1) * (dm.h + 1) ≤ dm.tiles.length →
      (∀ x y, 1 ≤ x → x ≤ dm.w → 1 ≤ y → y ≤ dm.h → 0 ≤ cellVal dm x y) →
      ∃ fuel res,
        multiple_source_dijkstra_map cm dm maxcost fuel = some res) := by
  refine ⟨fun pq cm dm h1 h2 h3 => compute_terminates pq cm dm h1 h2 h3,
    fun cm x y maxcost hcost => ?_,
    fun cm dm maxcost hcost hti hlen hnn => ?_⟩
  · have hheap : IsHeap (PQueue_push [] ⟨0, x, y⟩) :=
      PQueue_push_isHeap [] ⟨0, x, y⟩ isHeap_nil
    have hmem : ∀ e ∈ PQueue_push [] ⟨0, x, y⟩, 0 ≤ e.f := by
      intro e he
      have hm := (PQueue_push_perm [] ⟨0, x, y⟩).subset he
      rw [List.mem_singleton] at hm
      rw [hm]
    obtain ⟨fuel, res, h⟩ := compute_terminates (PQueue_push [] ⟨0, x, y⟩) cm
      (LuaMap_new cm.w cm.h maxcost) hcost hheap hmem
    refine ⟨fuel, Except.map Prod.snd res, ?_⟩
    show (compute_dijkstra fuel (PQueue_push [] ⟨0, x, y⟩) cm
      (LuaMap_new cm.w cm.h maxcost)).map (Except.map Prod.snd) = _
    rw [h]
    rfl
  · rcases hms : mseed dm maxcost with er | ⟨pq, dm'⟩
    · refine ⟨1, Except.error er, ?_⟩
      show (match mseed dm maxcost with
        | .error e => some (.error e)
        | .ok (pq, distmap') => compute_dijkstra 1 pq cm distmap' :
          Option (Except Err (LuaMap × LuaMap))) = _
      rw [hms]
    · obtain ⟨pq2, m2, hfold, hperm, _hmc, _hoth, _hw, _hh, _hti2, _hsrc,
        _hdef, _hlen2, hheap⟩ :=
        mseed_fold maxcost (coordList dm.w dm.h) [] dm
          (fun p hp => mem_coordList.mp hp)
          (fun p _ => Or.inl hti) (coordList_nodup dm.w dm.h) hlen
      have he : (Except.ok (pq, dm') : Except Err (PQueue × LuaMap)) =
          .ok (pq2, m2) := by
        rw [← hms]
        exact hfold
      injection he with he2
      injection he2 with hpq hdm
      subst hpq
      subst hdm
      have hmem : ∀ e ∈ pq, 0 ≤ e.f := by
        intro e he'
        have hm := hperm.subset he'
        rw [List.nil_append] at hm
        obtain ⟨p, hp, rfl⟩ := List.mem_map.mp hm
        have hpc := (List.mem_filter.mp hp).1
        have hr := mem_coordList.mp hpc
        exact hnn p.1 p.2 hr.1 hr.2.1 hr.2.2.1 hr.2.2.2
      obtain ⟨fuel, res, h⟩ := compute_terminates pq cm dm' hcost
        (hheap isHeap_nil) hmem
      refine ⟨fuel, res, ?_⟩
      show (match mseed dm maxcost with
        | .error e => some (.error e)
        | .ok (pq, distmap') => compute_dijkstra fuel pq cm distmap' :
          Option (Except Err (LuaMap × LuaMap))) = _
      rw [hms]
      exact h

/-- Witness for the amended C6, exercising all three conjuncts: the bare
relaxation loop from an empty heap, a single-source run on a 1×1 grid of
cost 1, and a multiple-source run with a table-backed distance map whose
cells resolve to 5. -/
theorem C6_amended_witness :
    (∃ fuel res, compute_dijkstra fuel [] (LuaMap_new 1 1 0)
      (LuaMap_new 1 1 0) = some res) ∧
    (∃ fuel res, single_source_dijkstra_map (LuaMap_new 1 1 1) 1 1 10 fuel =
      some res) ∧
    (∃ fuel res, multiple_source_dijkstra_map (LuaMap_new 1 1 1)
      (LuaMap_from_table (fun _ _ => .num 5) 0 1 1 0) 10 fuel = some res) :=
  ⟨C6_amended.1 [] (LuaMap_new 1 1 0) (LuaMap_new 1 1 0)
     (costOk_new 1 1 0 (le_refl 0)) isHeap_nil
     (fun e he => absurd he (List.not_mem_nil e)),
   C6_amended.2.1 (LuaMap_new 1 1 1) 1 1 10 (costOk_new 1 1 1 (by decide)),
   C6_amended.2.2 (LuaMap_new 1 1 1)
     (LuaMap_from_table (fun _ _ => .num 5) 0 1 1 0) 10
     (costOk_new 1 1 1 (by decide)) (by decide) (by decide)
     (by
       intro x y h1 h2 h3 h4
       have hx : x = 1 := le_antisymm h2 h1
       have hy : y = 1 := le_antisymm h4 h3
       subst hx
       subst hy
       decide)⟩

end Pathing
